import Mathlib

/-!
Verification of the Minesweeper inference engine (minesweeper.py).

The Python source consists of three classes:
  * `Minesweeper` — the board: mine placement, nearby-mine counting, win check;
  * `Sentence` — a logical constraint: a set of cells and an integer mine count;
  * `MinesweeperAI` — the inference engine: known-safe / known-mine sets, a
    knowledge base of sentences, direct resolution to a fixed point and a
    single subset-reduction pass per observation.

Cells are coordinate pairs of naturals.  Python sets of cells become
`Finset Cell`; the knowledge base, a Python list, becomes `List Sentence`;
the mutable engine object becomes explicit state passing on a structure.
Counts are `Int` (Python ints may go negative via subset subtraction).
-/

abbrev Cell := Nat × Nat

/-- The set of in-bounds cells of a `height × width` grid. -/
def gridCells (height width : Nat) : Finset Cell :=
  Finset.range height ×ˢ Finset.range width

/-- `Sentence(cells, count)`: a set of board cells and a count of how many of
them are mines.  Source: class `Sentence`, `__init__`. -/
structure Sentence where
  cells : Finset Cell
  count : Int
deriving DecidableEq

/-- `Sentence.known_mines`: the full cell set when it is non-empty and its size
equals the count, else no information (`None` in the source). -/
def Sentence.known_mines (s : Sentence) : Option (Finset Cell) :=
  if s.cells.card ≠ 0 ∧ (s.cells.card : Int) = s.count then some s.cells else none

/-- `Sentence.known_safes`: the full cell set when it is non-empty and the
count is `≤ 0`, else no information. -/
def Sentence.known_safes (s : Sentence) : Option (Finset Cell) :=
  if s.cells.card ≠ 0 ∧ s.count ≤ 0 then some s.cells else none

/-- `Sentence.mark_mine(cell)`: if the cell is present, remove it and
decrement the count.  (The source guard `if self.cells and cell in self.cells`
is equivalent to membership, since membership implies non-emptiness.) -/
def Sentence.mark_mine (s : Sentence) (cell : Cell) : Sentence :=
  if cell ∈ s.cells then { cells := s.cells.erase cell, count := s.count - 1 } else s

/-- `Sentence.mark_safe(cell)`: if the cell is present, remove it; the count
is unchanged. -/
def Sentence.mark_safe (s : Sentence) (cell : Cell) : Sentence :=
  if cell ∈ s.cells then { s with cells := s.cells.erase cell } else s

/-- Marking a whole set of cells as mines at once: the result of calling
`Sentence.mark_mine` once for each cell of `S` in any order (see
`Sentence.foldl_mark_mine`). -/
def Sentence.markMineAll (s : Sentence) (S : Finset Cell) : Sentence :=
  { cells := s.cells \ S, count := s.count - ((s.cells ∩ S).card : Int) }

/-- Marking a whole set of cells as safe at once: the result of calling
`Sentence.mark_safe` once for each cell of `S` in any order (see
`Sentence.foldl_mark_safe`). -/
def Sentence.markSafeAll (s : Sentence) (S : Finset Cell) : Sentence :=
  { s with cells := s.cells \ S }

/-- One cell, then the rest: single-cell mine marking followed by the
simultaneous form, for a cell not in the remaining set. -/
theorem Sentence.mark_mine_markMineAll (s : Sentence) (a : Cell) (S : Finset Cell)
    (ha : a ∉ S) : (s.mark_mine a).markMineAll S = s.markMineAll (insert a S) := by
  unfold Sentence.mark_mine Sentence.markMineAll
  by_cases h : a ∈ s.cells
  · simp only [h, if_true]
    refine Sentence.mk.injEq _ _ _ _ ▸ ⟨?_, ?_⟩
    · ext x
      simp only [Finset.mem_sdiff, Finset.mem_erase, Finset.mem_insert]
      tauto
    · have h1 : s.cells.erase a ∩ S = s.cells ∩ S := by
        ext x
        simp only [Finset.mem_inter, Finset.mem_erase]
        constructor
        · rintro ⟨⟨_, hx⟩, hxS⟩; exact ⟨hx, hxS⟩
        · rintro ⟨hx, hxS⟩
          exact ⟨⟨fun hxa => ha (hxa ▸ hxS), hx⟩, hxS⟩
      have h2 : s.cells ∩ insert a S = insert a (s.cells ∩ S) := by
        ext x
        simp only [Finset.mem_inter, Finset.mem_insert]
        constructor
        · rintro ⟨hx, hxa | hxS⟩
          · exact Or.inl hxa
          · exact Or.inr ⟨hx, hxS⟩
        · rintro (rfl | ⟨hx, hxS⟩)
          · exact ⟨h, Or.inl rfl⟩
          · exact ⟨hx, Or.inr hxS⟩
      have h3 : a ∉ s.cells ∩ S := by
        simp only [Finset.mem_inter]
        rintro ⟨_, hc⟩; exact ha hc
      rw [h1, h2, Finset.card_insert_of_not_mem h3]
      push_cast
      ring
  · simp only [h, if_false]
    have h1 : s.cells \ S = s.cells \ insert a S := by
      ext x
      simp only [Finset.mem_sdiff, Finset.mem_insert]
      constructor
      · rintro ⟨hx, hxS⟩
        exact ⟨hx, fun hc => hc.elim (fun hxa => h (hxa ▸ hx)) hxS⟩
      · rintro ⟨hx, hxS⟩
        exact ⟨hx, fun hc => hxS (Or.inr hc)⟩
    have h2 : s.cells ∩ S = s.cells ∩ insert a S := by
      ext x
      simp only [Finset.mem_inter, Finset.mem_insert]
      constructor
      · rintro ⟨hx, hxS⟩; exact ⟨hx, Or.inr hxS⟩
      · rintro ⟨hx, rfl | hxS⟩
        · exact absurd hx h
        · exact ⟨hx, hxS⟩
    rw [h1, h2]

/-- One cell, then the rest, for safe marking. -/
theorem Sentence.mark_safe_markSafeAll (s : Sentence) (a : Cell) (S : Finset Cell) :
    (s.mark_safe a).markSafeAll S = s.markSafeAll (insert a S) := by
  unfold Sentence.mark_safe Sentence.markSafeAll
  by_cases h : a ∈ s.cells
  · simp only [h, if_true]
    refine Sentence.mk.injEq _ _ _ _ ▸ ⟨?_, rfl⟩
    ext x
    simp only [Finset.mem_sdiff, Finset.mem_erase, Finset.mem_insert]
    tauto
  · simp only [h, if_false]
    refine Sentence.mk.injEq _ _ _ _ ▸ ⟨?_, rfl⟩
    ext x
    simp only [Finset.mem_sdiff, Finset.mem_insert]
    constructor
    · rintro ⟨hx, hxS⟩
      exact ⟨hx, fun hc => hc.elim (fun hxa => h (hxa ▸ hx)) hxS⟩
    · rintro ⟨hx, hxS⟩
      exact ⟨hx, fun hc => hxS (Or.inr hc)⟩

/-- Sequentially mine-marking the cells of a duplicate-free list equals the
simultaneous form on its underlying set: the set-marking used in the embedding
of the direct-resolution pass is the order-independent meaning of the source's
one-cell-at-a-time loop. -/
theorem Sentence.foldl_mark_mine (l : List Cell) (hl : l.Nodup) (s : Sentence) :
    l.foldl Sentence.mark_mine s = s.markMineAll l.toFinset := by
  induction l generalizing s with
  | nil =>
    simp only [List.foldl_nil, List.toFinset_nil]
    unfold Sentence.markMineAll
    refine Sentence.mk.injEq _ _ _ _ ▸ ⟨?_, ?_⟩
    · simp
    · simp
  | cons a t ih =>
    have hn : a ∉ t := (List.nodup_cons.mp hl).1
    have ht : t.Nodup := (List.nodup_cons.mp hl).2
    have hnf : a ∉ t.toFinset := by
      simp only [List.mem_toFinset]; exact hn
    simp only [List.foldl_cons, List.toFinset_cons]
    rw [ih ht, Sentence.mark_mine_markMineAll _ _ _ hnf]

/-- Sequentially safe-marking the cells of a list equals the simultaneous
form on its underlying set. -/
theorem Sentence.foldl_mark_safe (l : List Cell) (s : Sentence) :
    l.foldl Sentence.mark_safe s = s.markSafeAll l.toFinset := by
  induction l generalizing s with
  | nil =>
    simp only [List.foldl_nil, List.toFinset_nil]
    unfold Sentence.markSafeAll
    refine Sentence.mk.injEq _ _ _ _ ▸ ⟨?_, rfl⟩
    simp
  | cons a t ih =>
    simp only [List.foldl_cons, List.toFinset_cons]
    rw [ih, Sentence.mark_safe_markSafeAll]

/-!
The board (`class Minesweeper`).  `board[i][j]` is true exactly for the cells
of the mine set, so the board is represented by its height, width and mine set.
-/

/-- `Minesweeper.is_mine(cell)`: direct lookup into the mine set. -/
def Minesweeper.is_mine (mines : Finset Cell) (cell : Cell) : Bool :=
  cell ∈ mines

/-- `Minesweeper.won()`: the flagged set equals the mine set exactly. -/
def Minesweeper.won (mines mines_found : Finset Cell) : Bool :=
  mines_found = mines

/-- `Minesweeper.nearby_mines(cell)`: scan the rows `cell.1 - 1 .. cell.1 + 1`
and columns `cell.2 - 1 .. cell.2 + 1`, skip the cell itself, and count the
in-bounds cells that are mines.  Coordinates are naturals, so the truncated
`cell.1 - 1` at row `0` covers exactly the rows the source's in-bounds check
`0 <= i` retains. -/
def Minesweeper.nearby_mines (height width : Nat) (mines : Finset Cell)
    (cell : Cell) : Nat :=
  (((Finset.Icc (cell.1 - 1) (cell.1 + 1)) ×ˢ (Finset.Icc (cell.2 - 1) (cell.2 + 1))).filter
    (fun p => p ≠ cell ∧ p.1 < height ∧ p.2 < width ∧ p ∈ mines)).card

/-- The mine-placement loop of `Minesweeper.__init__`: while the mine set has
not reached the requested size, draw a position `(i, j)` from the supplied
stream of random draws and add it when it is not already a mine.  The source
loops on an endless stream of draws; here the loop additionally stops with
`none` when the finite stream of draws runs out, so that a run that can never
reach the requested size is the constant `none`. -/
def Minesweeper.placeMines (target : Nat) : List Cell → Finset Cell → Option (Finset Cell)
  | [], mines => if mines.card = target then some mines else none
  | p :: rest, mines =>
    if mines.card = target then some mines
    else Minesweeper.placeMines target rest (if p ∈ mines then mines else insert p mines)

/-!
The inference engine (`class MinesweeperAI`).
-/

/-- Engine state: grid dimensions, the observed cells, the known-mine and
known-safe sets (`self.mines`, `self.safes`) and the knowledge base. -/
structure AI where
  height : Nat
  width : Nat
  moves_made : Finset Cell
  mines : Finset Cell
  safes : Finset Cell
  knowledge : List Sentence
deriving DecidableEq

/-- `MinesweeperAI.__init__(height, width)`. -/
def AI.init (height width : Nat) : AI :=
  { height := height, width := width, moves_made := ∅, mines := ∅, safes := ∅,
    knowledge := [] }

/-- `MinesweeperAI.mark_mine(cell)`: add the cell to the known-mine set and
propagate `Sentence.mark_mine` to every sentence of the knowledge base. -/
def AI.mark_mine (ai : AI) (cell : Cell) : AI :=
  { ai with mines := insert cell ai.mines,
            knowledge := ai.knowledge.map (fun s => s.mark_mine cell) }

/-- `MinesweeperAI.mark_safe(cell)`: add the cell to the known-safe set and
propagate `Sentence.mark_safe` to every sentence. -/
def AI.mark_safe (ai : AI) (cell : Cell) : AI :=
  { ai with safes := insert cell ai.safes,
            knowledge := ai.knowledge.map (fun s => s.mark_safe cell) }

/-- Engine-level simultaneous mine marking of a whole set (the meaning of the
source's cell-by-cell loop over a snapshot of a sentence's cells; see
`AI.engine_foldl_mark_mine`). -/
def AI.markMineAll (ai : AI) (S : Finset Cell) : AI :=
  { ai with mines := ai.mines ∪ S,
            knowledge := ai.knowledge.map (fun s => s.markMineAll S) }

/-- Engine-level simultaneous safe marking of a whole set. -/
def AI.markSafeAll (ai : AI) (S : Finset Cell) : AI :=
  { ai with safes := ai.safes ∪ S,
            knowledge := ai.knowledge.map (fun s => s.markSafeAll S) }

/-- Sequentially calling the engine `mark_mine` on the cells of a
duplicate-free list equals the simultaneous set form. -/
theorem AI.engine_foldl_mark_mine (l : List Cell) (hl : l.Nodup) (ai : AI) :
    l.foldl AI.mark_mine ai = ai.markMineAll l.toFinset := by
  induction l generalizing ai with
  | nil =>
    unfold AI.markMineAll
    simp only [List.foldl_nil, List.toFinset_nil]
    have hk : ai.knowledge.map (fun s => s.markMineAll ∅) = ai.knowledge := by
      have : ∀ s : Sentence, s.markMineAll ∅ = s := by
        intro s
        unfold Sentence.markMineAll
        refine Sentence.mk.injEq _ _ _ _ ▸ ⟨?_, ?_⟩ <;> simp
      simp [this]
    rw [hk]
    cases ai
    simp
  | cons a t ih =>
    have hn : a ∉ t := (List.nodup_cons.mp hl).1
    have hnf : a ∉ t.toFinset := by simp only [List.mem_toFinset]; exact hn
    simp only [List.foldl_cons, List.toFinset_cons]
    rw [ih (List.nodup_cons.mp hl).2]
    unfold AI.mark_mine AI.markMineAll
    simp only [List.map_map]
    refine congrArg₂ (fun m k => { ai with mines := m, knowledge := k }) ?_ ?_
    · ext x
      simp only [Finset.mem_union, Finset.mem_insert, List.mem_toFinset]
      tauto
    · refine List.map_congr_left ?_
      intro s _
      exact Sentence.mark_mine_markMineAll s a t.toFinset hnf

/-- Sequentially calling the engine `mark_safe` on the cells of a
duplicate-free list equals the simultaneous set form. -/
theorem AI.engine_foldl_mark_safe (l : List Cell) (hl : l.Nodup) (ai : AI) :
    l.foldl AI.mark_safe ai = ai.markSafeAll l.toFinset := by
  induction l generalizing ai with
  | nil =>
    unfold AI.markSafeAll
    simp only [List.foldl_nil, List.toFinset_nil]
    have hk : ai.knowledge.map (fun s => s.markSafeAll ∅) = ai.knowledge := by
      have : ∀ s : Sentence, s.markSafeAll ∅ = s := by
        intro s
        unfold Sentence.markSafeAll
        refine Sentence.mk.injEq _ _ _ _ ▸ ⟨?_, rfl⟩
        simp
      simp [this]
    rw [hk]
    cases ai
    simp
  | cons a t ih =>
    simp only [List.foldl_cons, List.toFinset_cons]
    rw [ih (List.nodup_cons.mp hl).2]
    unfold AI.mark_safe AI.markSafeAll
    simp only [List.map_map]
    refine congrArg₂ (fun m k => { ai with safes := m, knowledge := k }) ?_ ?_
    · ext x
      simp only [Finset.mem_union, Finset.mem_insert, List.mem_toFinset]
      tauto
    · refine List.map_congr_left ?_
      intro s _
      exact Sentence.mark_safe_markSafeAll s a t.toFinset

/-- `MinesweeperAI.get_neighbours(cell)`: the source initialises
`up = row - 1`, `down = row + 1`, then sets `up = row` when `row == 0`,
`else` sets `down = height - 1` when `row == height - 1` (and symmetrically
for columns), and finally collects every `(row, col)` of the rectangle that is
not already known safe.  Note the `elif`: on a one-row board (`row == 0`
and `row == height - 1` simultaneously) `down` stays `row + 1`, one past the
grid.  The centre cell itself is kept unless it is in `safes`. -/
def AI.get_neighbours (ai : AI) (cell : Cell) : Finset Cell :=
  let up : Nat := if cell.1 = 0 then cell.1 else cell.1 - 1
  let down : Nat := if cell.1 ≠ 0 ∧ cell.1 = ai.height - 1 then ai.height - 1 else cell.1 + 1
  let left : Nat := if cell.2 = 0 then cell.2 else cell.2 - 1
  let right : Nat := if cell.2 ≠ 0 ∧ cell.2 = ai.width - 1 then ai.width - 1 else cell.2 + 1
  ((Finset.Icc up down) ×ˢ (Finset.Icc left right)).filter (fun p => p ∉ ai.safes)

/-- One iteration of the body of `update_with_new_sentence`'s `for` loop, for
the sentence at index `i` of the knowledge base: read `known_mines()` and
`known_safes()` from the sentence (both are read before any marking), then
engine-mark every cell of a snapshot of the returned set, counting one change
per marked cell.  Out-of-range indices contribute nothing (the list's length
is invariant during the pass, so they never occur in `AI.updatePass`). -/
def AI.stepSentence (ai : AI) (i : Nat) : AI × Nat :=
  match ai.knowledge.get? i with
  | none => (ai, 0)
  | some sent =>
    let ms := sent.known_mines
    let ss := sent.known_safes
    let ai1 := match ms with
      | some S => ai.markMineAll S
      | none => ai
    let c1 := match ms with
      | some S => S.card
      | none => 0
    let ai2 := match ss with
      | some S => ai1.markSafeAll S
      | none => ai1
    let c2 := match ss with
      | some S => S.card
      | none => 0
    (ai2, c1 + c2)

/-- One full pass of `update_with_new_sentence` over the knowledge base
(`for sent in self.knowledge: ...`), threading the mutated engine through the
indices and accumulating `changed_things`. -/
def AI.updatePass (ai : AI) : AI × Nat :=
  (List.range ai.knowledge.length).foldl
    (fun p i => ((p.1.stepSentence i).1, p.2 + (p.1.stepSentence i).2)) (ai, 0)

/-- The total number of (sentence, cell) memberships of the knowledge base:
the termination measure of the direct-resolution fixed point. -/
def AI.totalMem (ai : AI) : Nat :=
  (ai.knowledge.map (fun s => s.cells.card)).sum

/-- Fuel-indexed direct-resolution loop: run a pass; while it classified
anything, run again, spending one unit of fuel per re-pass.  (The source
recurses unboundedly; `AI.update_eq` below shows the fuelled form run with
enough fuel satisfies exactly the source's recursion.) -/
def AI.updateAux : Nat → AI → AI
  | 0, ai => ai
  | fuel + 1, ai =>
    if 0 < ai.updatePass.2 then AI.updateAux fuel ai.updatePass.1 else ai.updatePass.1

/-- `MinesweeperAI.update_with_new_sentence()`: the direct-resolution fixed
point.  One re-pass per positive-change pass can happen at most `totalMem`
times (each classification removes the classified cell from every sentence
that mentions it), so `totalMem + 1` passes always reach the fixed point;
`AI.update_eq` proves the source's recursion equation for this definition. -/
def AI.update_with_new_sentence (ai : AI) : AI :=
  AI.updateAux (ai.totalMem + 1) ai

/-- Inversion for `Sentence.known_mines`. -/
theorem Sentence.known_mines_eq_some {s : Sentence} {S : Finset Cell} :
    s.known_mines = some S ↔
      S = s.cells ∧ s.cells.card ≠ 0 ∧ (s.cells.card : Int) = s.count := by
  unfold Sentence.known_mines
  split_ifs with h
  · simp only [Option.some.injEq]
    constructor
    · intro he; exact ⟨he.symm, h.1, h.2⟩
    · intro he; exact he.1.symm
  · simp only [false_iff]
    intro he
    exact (he.elim (fun _ hc => h ⟨hc.1, hc.2⟩) : False)

/-- Inversion for `Sentence.known_safes`. -/
theorem Sentence.known_safes_eq_some {s : Sentence} {S : Finset Cell} :
    s.known_safes = some S ↔
      S = s.cells ∧ s.cells.card ≠ 0 ∧ s.count ≤ 0 := by
  unfold Sentence.known_safes
  split_ifs with h
  · simp only [Option.some.injEq]
    constructor
    · intro he; exact ⟨he.symm, h.1, h.2⟩
    · intro he; exact he.1.symm
  · simp only [false_iff]
    intro he
    exact h ⟨he.2.1, he.2.2⟩

/-- A sentence never reports both all-mines and all-safes: when `known_mines`
is informative, `known_safes` is not. -/
theorem Sentence.known_mines_some_safes_none {s : Sentence} {S : Finset Cell}
    (h : s.known_mines = some S) : s.known_safes = none := by
  obtain ⟨-, hcard, hcount⟩ := Sentence.known_mines_eq_some.mp h
  unfold Sentence.known_safes
  rw [if_neg]
  rintro ⟨-, hle⟩
  have : (1 : Int) ≤ (s.cells.card : Int) := by exact_mod_cast Nat.one_le_iff_ne_zero.mpr hcard
  omega

/-- Cells only ever leave a sentence under set-wide mine marking. -/
theorem Sentence.markMineAll_card_le (s : Sentence) (S : Finset Cell) :
    (s.markMineAll S).cells.card ≤ s.cells.card :=
  Finset.card_le_card (Finset.sdiff_subset)

/-- Cells only ever leave a sentence under set-wide safe marking. -/
theorem Sentence.markSafeAll_card_le (s : Sentence) (S : Finset Cell) :
    (s.markSafeAll S).cells.card ≤ s.cells.card :=
  Finset.card_le_card (Finset.sdiff_subset)

/-- List form: marking the full cell set of a member sentence as mines shrinks
the summed cell counts by at least that set's size. -/
theorem sum_card_markMineAll (l : List Sentence) (sent : Sentence) (hmem : sent ∈ l) :
    (l.map (fun s => (s.markMineAll sent.cells).cells.card)).sum + sent.cells.card ≤
      (l.map (fun s => s.cells.card)).sum := by
  induction l with
  | nil => cases hmem
  | cons a t ih =>
    rcases List.mem_cons.mp hmem with rfl | hmem'
    · simp only [List.map_cons, List.sum_cons]
      have h0 : (sent.markMineAll sent.cells).cells.card = 0 := by
        unfold Sentence.markMineAll
        simp
      have ht : (t.map (fun s => (s.markMineAll sent.cells).cells.card)).sum ≤
          (t.map (fun s => s.cells.card)).sum :=
        List.sum_le_sum (fun s _ => Sentence.markMineAll_card_le s sent.cells)
      omega
    · simp only [List.map_cons, List.sum_cons]
      have hh : (a.markMineAll sent.cells).cells.card ≤ a.cells.card :=
        Sentence.markMineAll_card_le a sent.cells
      have := ih hmem'
      omega

/-- List form: marking the full cell set of a member sentence as safe shrinks
the summed cell counts by at least that set's size. -/
theorem sum_card_markSafeAll (l : List Sentence) (sent : Sentence) (hmem : sent ∈ l) :
    (l.map (fun s => (s.markSafeAll sent.cells).cells.card)).sum + sent.cells.card ≤
      (l.map (fun s => s.cells.card)).sum := by
  induction l with
  | nil => cases hmem
  | cons a t ih =>
    rcases List.mem_cons.mp hmem with rfl | hmem'
    · simp only [List.map_cons, List.sum_cons]
      have h0 : (sent.markSafeAll sent.cells).cells.card = 0 := by
        unfold Sentence.markSafeAll
        simp
      have ht : (t.map (fun s => (s.markSafeAll sent.cells).cells.card)).sum ≤
          (t.map (fun s => s.cells.card)).sum :=
        List.sum_le_sum (fun s _ => Sentence.markSafeAll_card_le s sent.cells)
      omega
    · simp only [List.map_cons, List.sum_cons]
      have hh : (a.markSafeAll sent.cells).cells.card ≤ a.cells.card :=
        Sentence.markSafeAll_card_le a sent.cells
      have := ih hmem'
      omega

/-- Marking the full cell set of a member sentence as mines shrinks the total
membership count by at least that set's size. -/
theorem AI.totalMem_markMineAll (ai : AI) (sent : Sentence)
    (hmem : sent ∈ ai.knowledge) :
    (ai.markMineAll sent.cells).totalMem + sent.cells.card ≤ ai.totalMem := by
  unfold AI.markMineAll AI.totalMem
  simp only [List.map_map, Function.comp]
  exact sum_card_markMineAll ai.knowledge sent hmem

/-- Marking the full cell set of a member sentence as safe shrinks the total
membership count by at least that set's size. -/
theorem AI.totalMem_markSafeAll (ai : AI) (sent : Sentence)
    (hmem : sent ∈ ai.knowledge) :
    (ai.markSafeAll sent.cells).totalMem + sent.cells.card ≤ ai.totalMem := by
  unfold AI.markSafeAll AI.totalMem
  simp only [List.map_map, Function.comp]
  exact sum_card_markSafeAll ai.knowledge sent hmem

/-- Set-wide marking never grows the total membership count. -/
theorem AI.totalMem_markMineAll_le (ai : AI) (S : Finset Cell) :
    (ai.markMineAll S).totalMem ≤ ai.totalMem := by
  unfold AI.markMineAll AI.totalMem
  simp only [List.map_map, Function.comp]
  exact List.sum_le_sum (fun s _ => Sentence.markMineAll_card_le s S)

/-- Set-wide safe marking never grows the total membership count. -/
theorem AI.totalMem_markSafeAll_le (ai : AI) (S : Finset Cell) :
    (ai.markSafeAll S).totalMem ≤ ai.totalMem := by
  unfold AI.markSafeAll AI.totalMem
  simp only [List.map_map, Function.comp]
  exact List.sum_le_sum (fun s _ => Sentence.markSafeAll_card_le s S)

/-- A single loop-body iteration cannot grow the total membership count, and
every change it counts is paid for by a removed membership. -/
theorem AI.stepSentence_quant (ai : AI) (i : Nat) :
    (ai.stepSentence i).1.totalMem + (ai.stepSentence i).2 ≤ ai.totalMem := by
  unfold AI.stepSentence
  cases h : ai.knowledge.get? i with
  | none => simp
  | some sent =>
    have hmem : sent ∈ ai.knowledge := List.get?_mem h
    cases hm : sent.known_mines with
    | some S =>
      obtain ⟨hS, hcard, hcount⟩ := Sentence.known_mines_eq_some.mp hm
      subst hS
      have hs : sent.known_safes = none := Sentence.known_mines_some_safes_none hm
      simp only [hm, hs]
      have := AI.totalMem_markMineAll ai sent hmem
      omega
    | none =>
      cases hsafe : sent.known_safes with
      | some S =>
        obtain ⟨hS, hcard, hle⟩ := Sentence.known_safes_eq_some.mp hsafe
        subst hS
        simp only [hm, hsafe]
        have := AI.totalMem_markSafeAll ai sent hmem
        omega
      | none => simp [hm, hsafe]

/-- A change-free loop-body iteration leaves the engine untouched. -/
theorem AI.stepSentence_zero (ai : AI) (i : Nat)
    (h : (ai.stepSentence i).2 = 0) : (ai.stepSentence i).1 = ai := by
  cases hg : ai.knowledge[i]? with
  | none => simp [AI.stepSentence, List.get?_eq_getElem?, hg]
  | some sent =>
    cases hm : sent.known_mines with
    | some S =>
      obtain ⟨hS, hcard, -⟩ := Sentence.known_mines_eq_some.mp hm
      subst hS
      have hs : sent.known_safes = none := Sentence.known_mines_some_safes_none hm
      simp only [AI.stepSentence, List.get?_eq_getElem?, hg, hm, hs] at h
      omega
    | none =>
      cases hsafe : sent.known_safes with
      | some S =>
        obtain ⟨hS, hcard, -⟩ := Sentence.known_safes_eq_some.mp hsafe
        subst hS
        simp only [AI.stepSentence, List.get?_eq_getElem?, hg, hm, hsafe] at h
        omega
      | none => simp [AI.stepSentence, List.get?_eq_getElem?, hg, hm, hsafe]

/-- The whole-pass fold cannot grow membership-plus-changes. -/
theorem AI.passFold_quant (l : List Nat) (p : AI × Nat) :
    (l.foldl (fun p i => ((p.1.stepSentence i).1, p.2 + (p.1.stepSentence i).2)) p).1.totalMem +
      (l.foldl (fun p i => ((p.1.stepSentence i).1, p.2 + (p.1.stepSentence i).2)) p).2 ≤
      p.1.totalMem + p.2 := by
  induction l generalizing p with
  | nil => simp
  | cons i t ih =>
    simp only [List.foldl_cons]
    have h1 := ih ((p.1.stepSentence i).1, p.2 + (p.1.stepSentence i).2)
    have h2 := AI.stepSentence_quant p.1 i
    simp only at h1
    omega

/-- The change counter of the fold never decreases. -/
theorem AI.passFold_snd_mono (l : List Nat) (p : AI × Nat) :
    p.2 ≤ (l.foldl (fun p i => ((p.1.stepSentence i).1, p.2 + (p.1.stepSentence i).2)) p).2 := by
  induction l generalizing p with
  | nil => simp
  | cons i t ih =>
    simp only [List.foldl_cons]
    have h1 := ih ((p.1.stepSentence i).1, p.2 + (p.1.stepSentence i).2)
    simp only at h1
    omega

/-- A change-free fold leaves the engine untouched. -/
theorem AI.passFold_zero (l : List Nat) (p : AI × Nat)
    (h : (l.foldl (fun p i => ((p.1.stepSentence i).1, p.2 + (p.1.stepSentence i).2)) p).2 = p.2) :
    (l.foldl (fun p i => ((p.1.stepSentence i).1, p.2 + (p.1.stepSentence i).2)) p).1 = p.1 := by
  induction l generalizing p with
  | nil => simp
  | cons i t ih =>
    simp only [List.foldl_cons] at h ⊢
    have hmono := AI.passFold_snd_mono t ((p.1.stepSentence i).1, p.2 + (p.1.stepSentence i).2)
    simp only at hmono
    have hz : (p.1.stepSentence i).2 = 0 := by omega
    have hfix : (p.1.stepSentence i).1 = p.1 := AI.stepSentence_zero p.1 i hz
    rw [hfix, hz] at h ⊢
    exact ih (p.1, p.2 + 0) h

/-- One pass cannot grow the total membership count, and pays one removed
membership per counted change. -/
theorem AI.updatePass_quant (ai : AI) :
    ai.updatePass.1.totalMem + ai.updatePass.2 ≤ ai.totalMem := by
  unfold AI.updatePass
  have := AI.passFold_quant (List.range ai.knowledge.length) (ai, 0)
  simpa using this

/-- Memberships never grow across a pass. -/
theorem AI.updatePass_totalMem_le (ai : AI) :
    ai.updatePass.1.totalMem ≤ ai.totalMem := by
  have := AI.updatePass_quant ai
  omega

/-- A pass that classified at least one cell strictly shrinks the total
membership count: the heart of the termination argument. -/
theorem AI.updatePass_totalMem_lt (ai : AI) (h : 0 < ai.updatePass.2) :
    ai.updatePass.1.totalMem < ai.totalMem := by
  have := AI.updatePass_quant ai
  omega

/-- A change-free pass leaves the engine untouched. -/
theorem AI.updatePass_zero (ai : AI) (h : ai.updatePass.2 = 0) :
    ai.updatePass.1 = ai := by
  unfold AI.updatePass at h ⊢
  exact AI.passFold_zero (List.range ai.knowledge.length) (ai, 0) h

/-- One-step unfolding of the fuelled loop. -/
theorem AI.updateAux_succ (fuel : Nat) (ai : AI) :
    AI.updateAux (fuel + 1) ai =
      if 0 < ai.updatePass.2 then AI.updateAux fuel ai.updatePass.1 else ai.updatePass.1 := rfl

/-- Any fuel at least the total membership count reaches the same result:
one unit of fuel is spent per re-pass, and a re-pass only happens after a
strictly shrinking pass. -/
theorem AI.updateAux_sufficient (n : Nat) :
    ∀ ai : AI, ai.totalMem ≤ n → AI.updateAux (n + 1) ai = ai.update_with_new_sentence := by
  induction n using Nat.strong_induction_on with
  | _ n ih =>
    intro ai hn
    unfold AI.update_with_new_sentence
    by_cases hpos : 0 < ai.updatePass.2
    · have hlt : ai.updatePass.1.totalMem < ai.totalMem := AI.updatePass_totalMem_lt ai hpos
      obtain ⟨m, rfl⟩ : ∃ m, n = m + 1 := ⟨n - 1, by omega⟩
      obtain ⟨k, hk⟩ : ∃ k, ai.totalMem = k + 1 := ⟨ai.totalMem - 1, by omega⟩
      have h1 : AI.updateAux (m + 1 + 1) ai = AI.updateAux (m + 1) ai.updatePass.1 := by
        rw [AI.updateAux_succ, if_pos hpos]
      have h2 : AI.updateAux (ai.totalMem + 1) ai = AI.updateAux (k + 1) ai.updatePass.1 := by
        rw [hk, AI.updateAux_succ, if_pos hpos]
      rw [h1, h2]
      have e1 : AI.updateAux (m + 1) ai.updatePass.1 =
          ai.updatePass.1.update_with_new_sentence :=
        ih m (by omega) ai.updatePass.1 (by omega)
      have e2 : AI.updateAux (k + 1) ai.updatePass.1 =
          ai.updatePass.1.update_with_new_sentence :=
        ih k (by omega) ai.updatePass.1 (by omega)
      rw [e1, e2]
    · have h1 : AI.updateAux (n + 1) ai = ai.updatePass.1 := by
        rw [AI.updateAux_succ, if_neg hpos]
      have h2 : AI.updateAux (ai.totalMem + 1) ai = ai.updatePass.1 := by
        rw [AI.updateAux_succ, if_neg hpos]
      rw [h1, h2]

/-- The embedded fixed point satisfies exactly the source's recursion: run a
pass; if it classified anything, recurse on the new state, else stop. -/
theorem AI.update_eq (ai : AI) :
    ai.update_with_new_sentence =
      if 0 < ai.updatePass.2 then ai.updatePass.1.update_with_new_sentence
      else ai.updatePass.1 := by
  by_cases hpos : 0 < ai.updatePass.2
  · rw [if_pos hpos]
    have hlt : ai.updatePass.1.totalMem < ai.totalMem := AI.updatePass_totalMem_lt ai hpos
    obtain ⟨k, hk⟩ : ∃ k, ai.totalMem = k + 1 := ⟨ai.totalMem - 1, by omega⟩
    have h2 : ai.update_with_new_sentence = AI.updateAux (k + 1) ai.updatePass.1 := by
      unfold AI.update_with_new_sentence
      rw [hk, AI.updateAux_succ, if_pos hpos]
    rw [h2]
    exact AI.updateAux_sufficient k ai.updatePass.1 (by omega)
  · rw [if_neg hpos]
    unfold AI.update_with_new_sentence
    rw [AI.updateAux_succ, if_neg hpos]

/-- The direct-resolution loop really stops at a fixed point: after
`update_with_new_sentence`, a further pass classifies nothing. -/
theorem AI.update_fixpoint (ai : AI) :
    ai.update_with_new_sentence.updatePass.2 = 0 := by
  have H : ∀ n, ∀ ai : AI, ai.totalMem ≤ n → (AI.updateAux (n + 1) ai).updatePass.2 = 0 := by
    intro n
    induction n using Nat.strong_induction_on with
    | _ n ih =>
      intro ai hn
      by_cases hpos : 0 < ai.updatePass.2
      · have hlt : ai.updatePass.1.totalMem < ai.totalMem := AI.updatePass_totalMem_lt ai hpos
        obtain ⟨m, rfl⟩ : ∃ m, n = m + 1 := ⟨n - 1, by omega⟩
        have h1 : AI.updateAux (m + 1 + 1) ai = AI.updateAux (m + 1) ai.updatePass.1 := by
          rw [AI.updateAux_succ, if_pos hpos]
        rw [h1]
        exact ih m (by omega) ai.updatePass.1 (by omega)
      · have h1 : AI.updateAux (n + 1) ai = ai.updatePass.1 := by
          rw [AI.updateAux_succ, if_neg hpos]
        rw [h1]
        have hz : ai.updatePass.2 = 0 := by omega
        rw [AI.updatePass_zero ai hz]
        exact hz
  exact H ai.totalMem ai (le_refl _)

/-- The body of `get_subset_knowledge`'s doubly nested loop, for the ordered
pair `(s1, s2)`: when the cell sets differ and are both non-empty, each of the
two subset checks that holds bumps `changed_things` and rebuilds the
replacement list from the (unchanged during the scan) knowledge base `kb`,
substituting the derived sentence for every sentence whose cells equal the
superset's cells.  The accumulator is `(changed_things, new_knowledge)`. -/
def subsetStep (kb : List Sentence) (acc : Nat × List Sentence) (s1 s2 : Sentence) :
    Nat × List Sentence :=
  if s1.cells ≠ s2.cells ∧ s1.cells.card ≠ 0 ∧ s2.cells.card ≠ 0 then
    let acc1 :=
      if s1.cells ⊆ s2.cells then
        (acc.1 + 1, kb.map (fun s =>
          if s.cells = s2.cells then { cells := s2.cells \ s1.cells, count := s2.count - s1.count }
          else s))
      else acc
    if s2.cells ⊆ s1.cells then
      (acc1.1 + 1, kb.map (fun s =>
        if s.cells = s1.cells then { cells := s1.cells \ s2.cells, count := s1.count - s2.count }
        else s))
    else acc1
  else acc

/-- The full pairwise scan of `get_subset_knowledge`: `for sent_1 in
self.knowledge: for sent_2 in self.knowledge: ...` threading
`(changed_things, new_knowledge)` from `(0, [])`. -/
def subsetScan (kb : List Sentence) : Nat × List Sentence :=
  kb.foldl (fun acc s1 => kb.foldl (fun acc s2 => subsetStep kb acc s1 s2) acc) (0, [])

/-- `MinesweeperAI.get_subset_knowledge()`: scan every ordered pair of
sentences of the knowledge base (which no step of the scan mutates), and if
any pair fired, swap the knowledge base for the accumulated `new_knowledge`
(each firing rebuilt it from the pre-pass base, so only the last firing's
replacement survives). -/
def AI.get_subset_knowledge (ai : AI) : AI :=
  if 0 < (subsetScan ai.knowledge).1 then { ai with knowledge := (subsetScan ai.knowledge).2 }
  else ai

/-- `MinesweeperAI.add_knowledge(cell, count)`: record the move, mark the cell
safe, build a sentence over the neighbours not already known safe, append it,
run the direct-resolution fixed point, then one subset-reduction pass. -/
def AI.add_knowledge (ai : AI) (cell : Cell) (count : Int) : AI :=
  let ai1 := { ai with moves_made := insert cell ai.moves_made }
  let ai2 := ai1.mark_safe cell
  let ai3 := { ai2 with knowledge :=
    ai2.knowledge ++ [Sentence.mk (ai2.get_neighbours cell) count] }
  ai3.update_with_new_sentence.get_subset_knowledge

/-- `MinesweeperAI.make_safe_move()` returns some member of this candidate
set (it scans `self.safes` in unspecified set order and yields the first cell
not already played), or no move exactly when the set is empty. -/
def AI.safe_move_candidates (ai : AI) : Finset Cell :=
  ai.safes \ ai.moves_made

/-- The candidate list of `MinesweeperAI.make_random_move()`: the source loops
`for i in range(8): for j in range(8)` — the literal constant 8, not the
configured height and width — keeping the cells that are neither played nor
known mines. -/
def AI.random_move_candidates (ai : AI) : List Cell :=
  (List.range 8).flatMap (fun i =>
    ((List.range 8).filter (fun j => (i, j) ∉ ai.moves_made ∧ (i, j) ∉ ai.mines)).map
      (fun j => (i, j)))

/-- `MinesweeperAI.make_random_move()`: a random choice among the candidates
(modelled by an arbitrary choice index), or no move exactly when the candidate
list is empty. -/
def AI.make_random_move (ai : AI) (pick : Nat) : Option Cell :=
  if ai.random_move_candidates.isEmpty then none
  else ai.random_move_candidates[pick % ai.random_move_candidates.length]?

/-- A whole game seen by the engine: fold `add_knowledge` over a list of
observations `(cell, reported count)` starting from a fresh engine. -/
def runGame (height width : Nat) (obs : List (Cell × Int)) : AI :=
  obs.foldl (fun ai p => ai.add_knowledge p.1 p.2) (AI.init height width)

/-- An ordered pair of sentences of the knowledge base on which the loop of
`get_subset_knowledge` fires its subset branch: distinct non-empty cell sets
with the first contained in the second. -/
def firing (kb : List Sentence) (s1 s2 : Sentence) : Prop :=
  s1 ∈ kb ∧ s2 ∈ kb ∧ s1.cells ≠ s2.cells ∧ s1.cells.card ≠ 0 ∧ s2.cells.card ≠ 0 ∧
    s1.cells ⊆ s2.cells

/-- The replacement list a firing `(s1, s2)` builds: the pre-pass knowledge
base with every sentence whose cells equal `s2.cells` replaced by the derived
sentence `(s2.cells − s1.cells, s2.count − s1.count)`. -/
def replaceKB (kb : List Sentence) (s1 s2 : Sentence) : List Sentence :=
  kb.map (fun s =>
    if s.cells = s2.cells then Sentence.mk (s2.cells \ s1.cells) (s2.count - s1.count) else s)

/-- Invariant carried by the accumulator of the pairwise scan: nothing has
fired yet, or something fired and `new_knowledge` is the replacement list of
some firing pair. -/
def scanInv (kb : List Sentence) (acc : Nat × List Sentence) : Prop :=
  (acc.1 = 0 ∧ acc.2 = []) ∨
    (0 < acc.1 ∧ ∃ s1 s2, firing kb s1 s2 ∧ acc.2 = replaceKB kb s1 s2)

/-- One loop-body step preserves the scan invariant. -/
theorem subsetStep_inv (kb : List Sentence) (acc : Nat × List Sentence)
    (s1 s2 : Sentence) (h1 : s1 ∈ kb) (h2 : s2 ∈ kb) (hacc : scanInv kb acc) :
    scanInv kb (subsetStep kb acc s1 s2) := by
  unfold subsetStep
  split_ifs with hg h12 h21 h21b
  · exact Or.inr ⟨Nat.succ_pos _,
      s2, s1, ⟨h2, h1, fun hc => hg.1 hc.symm, hg.2.2, hg.2.1, h21⟩, rfl⟩
  · exact Or.inr ⟨Nat.succ_pos _, s1, s2, ⟨h1, h2, hg.1, hg.2.1, hg.2.2, h12⟩, rfl⟩
  · exact Or.inr ⟨Nat.succ_pos _,
      s2, s1, ⟨h2, h1, fun hc => hg.1 hc.symm, hg.2.2, hg.2.1, h21b⟩, rfl⟩
  · exact hacc
  · exact hacc

/-- One loop-body step never decreases the change counter. -/
theorem subsetStep_fst_le (kb : List Sentence) (acc : Nat × List Sentence)
    (s1 s2 : Sentence) : acc.1 ≤ (subsetStep kb acc s1 s2).1 := by
  unfold subsetStep
  split_ifs <;> ((try simp); (try omega))

/-- A step on a pair whose first component's cells sit inside the second's
(cells differing, both non-empty) makes the change counter positive. -/
theorem subsetStep_fires (kb : List Sentence) (acc : Nat × List Sentence)
    (s1 s2 : Sentence) (hne : s1.cells ≠ s2.cells) (hc1 : s1.cells.card ≠ 0)
    (hc2 : s2.cells.card ≠ 0) (hsub : s1.cells ⊆ s2.cells) :
    0 < (subsetStep kb acc s1 s2).1 := by
  unfold subsetStep
  rw [if_pos ⟨hne, hc1, hc2⟩]
  split_ifs <;> simp

/-- The inner loop (over `sent_2`) preserves the scan invariant. -/
theorem innerFold_inv (kb : List Sentence) (s1 : Sentence) (h1 : s1 ∈ kb) :
    ∀ (l : List Sentence), (∀ x ∈ l, x ∈ kb) → ∀ acc, scanInv kb acc →
      scanInv kb (l.foldl (fun acc s2 => subsetStep kb acc s1 s2) acc) := by
  intro l
  induction l with
  | nil => intro _ acc hacc; exact hacc
  | cons a t ih =>
    intro hsub acc hacc
    simp only [List.foldl_cons]
    exact ih (fun x hx => hsub x (List.mem_cons_of_mem a hx))
      (subsetStep kb acc s1 a) (subsetStep_inv kb acc s1 a h1 (hsub a (List.mem_cons_self a t)) hacc)

/-- The outer loop (over `sent_1`) preserves the scan invariant. -/
theorem outerFold_inv (kb : List Sentence) :
    ∀ (l : List Sentence), (∀ x ∈ l, x ∈ kb) → ∀ acc, scanInv kb acc →
      scanInv kb (l.foldl (fun acc s1 => kb.foldl (fun acc s2 => subsetStep kb acc s1 s2) acc)
        acc) := by
  intro l
  induction l with
  | nil => intro _ acc hacc; exact hacc
  | cons a t ih =>
    intro hsub acc hacc
    simp only [List.foldl_cons]
    refine ih (fun x hx => hsub x (List.mem_cons_of_mem a hx)) _ ?_
    exact innerFold_inv kb a (hsub a (List.mem_cons_self a t)) kb (fun x hx => hx) acc hacc

/-- The scan's accumulator satisfies the invariant. -/
theorem subsetScan_inv (kb : List Sentence) : scanInv kb (subsetScan kb) := by
  unfold subsetScan
  exact outerFold_inv kb kb (fun x hx => hx) (0, []) (Or.inl ⟨rfl, rfl⟩)

/-- The inner loop never decreases the change counter. -/
theorem innerFold_fst_le (kb : List Sentence) (s1 : Sentence) (l : List Sentence)
    (acc : Nat × List Sentence) :
    acc.1 ≤ (l.foldl (fun acc s2 => subsetStep kb acc s1 s2) acc).1 := by
  induction l generalizing acc with
  | nil => exact le_refl _
  | cons a t ih =>
    simp only [List.foldl_cons]
    exact le_trans (subsetStep_fst_le kb acc s1 a) (ih (subsetStep kb acc s1 a))

/-- The outer loop never decreases the change counter. -/
theorem outerFold_fst_le (kb : List Sentence) (l : List Sentence)
    (acc : Nat × List Sentence) :
    acc.1 ≤ (l.foldl (fun acc s1 => kb.foldl (fun acc s2 => subsetStep kb acc s1 s2) acc) acc).1 := by
  induction l generalizing acc with
  | nil => exact le_refl _
  | cons a t ih =>
    simp only [List.foldl_cons]
    exact le_trans (innerFold_fst_le kb a kb acc) (ih _)

/-- If the inner loop meets a firing partner, the change counter ends positive. -/
theorem innerFold_hit (kb : List Sentence) (s1 s2 : Sentence)
    (hne : s1.cells ≠ s2.cells) (hc1 : s1.cells.card ≠ 0) (hc2 : s2.cells.card ≠ 0)
    (hsub : s1.cells ⊆ s2.cells) :
    ∀ (l : List Sentence), s2 ∈ l → ∀ acc,
      0 < (l.foldl (fun acc x => subsetStep kb acc s1 x) acc).1 := by
  intro l
  induction l with
  | nil => intro h; cases h
  | cons a t ih =>
    intro hmem acc
    simp only [List.foldl_cons]
    rcases List.mem_cons.mp hmem with rfl | hmem'
    · exact lt_of_lt_of_le (subsetStep_fires kb acc s1 _ hne hc1 hc2 hsub)
        (innerFold_fst_le kb s1 t _)
    · exact ih hmem' _

/-- If any firing pair exists in the knowledge base, the scan's change
counter ends positive. -/
theorem outerFold_hit (kb : List Sentence) (s1 s2 : Sentence)
    (hf : firing kb s1 s2) :
    ∀ (l : List Sentence), s1 ∈ l → ∀ acc,
      0 < (l.foldl (fun acc x => kb.foldl (fun acc y => subsetStep kb acc x y) acc) acc).1 := by
  obtain ⟨h1, h2, hne, hc1, hc2, hsub⟩ := hf
  intro l
  induction l with
  | nil => intro h; cases h
  | cons a t ih =>
    intro hmem acc
    simp only [List.foldl_cons]
    rcases List.mem_cons.mp hmem with rfl | hmem'
    · exact lt_of_lt_of_le (innerFold_hit kb _ s2 hne hc1 hc2 hsub kb h2 acc)
        (outerFold_fst_le kb t _)
    · exact ih hmem' _

/-- Characterisation of one subset-reduction pass: either no ordered pair
fires and the engine is unchanged, or some pair fires, and the post-pass
knowledge base is exactly the replacement list of one firing pair — built
from the pre-pass knowledge base, all other firings' lists discarded. -/
theorem AI.get_subset_knowledge_spec (ai : AI) :
    (ai.get_subset_knowledge = ai ∧ ∀ s1 s2, ¬ firing ai.knowledge s1 s2) ∨
    ((∃ s1 s2, firing ai.knowledge s1 s2) ∧ ∃ s1 s2, firing ai.knowledge s1 s2 ∧
      ai.get_subset_knowledge = { ai with knowledge := replaceKB ai.knowledge s1 s2 }) := by
  have hinv := subsetScan_inv ai.knowledge
  by_cases hf : ∃ s1 s2, firing ai.knowledge s1 s2
  · right
    refine ⟨hf, ?_⟩
    obtain ⟨s1, s2, hfir⟩ := hf
    have hpos : 0 < (subsetScan ai.knowledge).1 := by
      unfold subsetScan
      exact outerFold_hit ai.knowledge s1 s2 hfir ai.knowledge hfir.1 (0, [])
    rcases hinv with ⟨h0, -⟩ | ⟨-, t1, t2, htf, heq⟩
    · omega
    · refine ⟨t1, t2, htf, ?_⟩
      unfold AI.get_subset_knowledge
      rw [if_pos hpos, heq]
  · left
    constructor
    · unfold AI.get_subset_knowledge
      rcases hinv with ⟨h0, -⟩ | ⟨-, t1, t2, htf, -⟩
      · rw [if_neg (by omega)]
      · exact absurd ⟨t1, t2, htf⟩ hf
    · intro s1 s2 hfir
      exact hf ⟨s1, s2, hfir⟩

/-- `ai2` extends `ai`: the known-safe and known-mine sets have only grown. -/
def grows (ai ai2 : AI) : Prop :=
  ai.safes ⊆ ai2.safes ∧ ai.mines ⊆ ai2.mines

theorem grows_refl (ai : AI) : grows ai ai :=
  ⟨Finset.Subset.refl _, Finset.Subset.refl _⟩

theorem grows_trans {a b c : AI} (h1 : grows a b) (h2 : grows b c) : grows a c :=
  ⟨Finset.Subset.trans h1.1 h2.1, Finset.Subset.trans h1.2 h2.2⟩

theorem grows_mark_safe (ai : AI) (c : Cell) : grows ai (ai.mark_safe c) :=
  ⟨Finset.subset_insert _ _, Finset.Subset.refl _⟩

theorem grows_mark_mine (ai : AI) (c : Cell) : grows ai (ai.mark_mine c) :=
  ⟨Finset.Subset.refl _, Finset.subset_insert _ _⟩

theorem grows_markMineAll (ai : AI) (S : Finset Cell) : grows ai (ai.markMineAll S) :=
  ⟨Finset.Subset.refl _, Finset.subset_union_left⟩

theorem grows_markSafeAll (ai : AI) (S : Finset Cell) : grows ai (ai.markSafeAll S) :=
  ⟨Finset.subset_union_left, Finset.Subset.refl _⟩

theorem grows_stepSentence (ai : AI) (i : Nat) : grows ai (ai.stepSentence i).1 := by
  cases hg : ai.knowledge[i]? with
  | none =>
    simp only [AI.stepSentence, List.get?_eq_getElem?, hg]
    exact grows_refl ai
  | some sent =>
    cases hm : sent.known_mines with
    | some S =>
      have hs := Sentence.known_mines_some_safes_none hm
      simp only [AI.stepSentence, List.get?_eq_getElem?, hg, hm, hs]
      exact grows_markMineAll ai S
    | none =>
      cases hs : sent.known_safes with
      | some T =>
        simp only [AI.stepSentence, List.get?_eq_getElem?, hg, hm, hs]
        exact grows_markSafeAll ai T
      | none =>
        simp only [AI.stepSentence, List.get?_eq_getElem?, hg, hm, hs]
        exact grows_refl ai

theorem grows_passFold (l : List Nat) (p : AI × Nat) :
    grows p.1 (l.foldl (fun p i => ((p.1.stepSentence i).1, p.2 + (p.1.stepSentence i).2)) p).1 := by
  induction l generalizing p with
  | nil => exact grows_refl _
  | cons i t ih =>
    simp only [List.foldl_cons]
    exact grows_trans (grows_stepSentence p.1 i)
      (ih ((p.1.stepSentence i).1, p.2 + (p.1.stepSentence i).2))

theorem grows_updatePass (ai : AI) : grows ai ai.updatePass.1 := by
  unfold AI.updatePass
  exact grows_passFold (List.range ai.knowledge.length) (ai, 0)

theorem grows_updateAux (fuel : Nat) : ∀ ai : AI, grows ai (AI.updateAux fuel ai) := by
  induction fuel with
  | zero => intro ai; exact grows_refl ai
  | succ f ih =>
    intro ai
    rw [AI.updateAux_succ]
    split_ifs with h
    · exact grows_trans (grows_updatePass ai) (ih ai.updatePass.1)
    · exact grows_updatePass ai

theorem grows_update (ai : AI) : grows ai ai.update_with_new_sentence :=
  grows_updateAux (ai.totalMem + 1) ai

theorem grows_get_subset_knowledge (ai : AI) : grows ai ai.get_subset_knowledge := by
  unfold AI.get_subset_knowledge
  split_ifs with h
  · exact ⟨Finset.Subset.refl _, Finset.Subset.refl _⟩
  · exact grows_refl ai

/-- Claim-level monotonicity: one `observe` call only grows the known-safe
and known-mine sets. -/
theorem grows_add_knowledge (ai : AI) (cell : Cell) (count : Int) :
    grows ai (ai.add_knowledge cell count) := by
  unfold AI.add_knowledge
  refine grows_trans ?_ (grows_get_subset_knowledge _)
  refine grows_trans ?_ (grows_update _)
  exact ⟨Finset.subset_insert _ _, Finset.Subset.refl _⟩

/-- A sentence is true of a ground-truth mine set `M`: its count is exactly
the number of its cells that are mines. -/
def SentTrue (M : Finset Cell) (s : Sentence) : Prop :=
  s.count = ((s.cells ∩ M).card : Int)

/-- Soundness invariant of the engine with respect to a ground truth `M`:
every known-safe cell is a non-mine, every known-mine cell is a mine, and
every sentence of the knowledge base is true of `M`. -/
def EngineInv (M : Finset Cell) (ai : AI) : Prop :=
  (∀ x ∈ ai.safes, x ∉ M) ∧ ai.mines ⊆ M ∧ ∀ s ∈ ai.knowledge, SentTrue M s

theorem SentTrue.mark_safe {M : Finset Cell} {c : Cell} (hc : c ∉ M) {s : Sentence}
    (h : SentTrue M s) : SentTrue M (s.mark_safe c) := by
  unfold Sentence.mark_safe
  split_ifs with hmem
  · unfold SentTrue at h ⊢
    simp only
    have he : s.cells.erase c ∩ M = s.cells ∩ M := by
      ext x
      simp only [Finset.mem_inter, Finset.mem_erase]
      constructor
      · rintro ⟨⟨-, hx⟩, hxM⟩; exact ⟨hx, hxM⟩
      · rintro ⟨hx, hxM⟩; exact ⟨⟨fun he => hc (he ▸ hxM), hx⟩, hxM⟩
    rw [he]; exact h
  · exact h

theorem SentTrue.markSafeAll {M S : Finset Cell} (hS : ∀ x ∈ S, x ∉ M) {s : Sentence}
    (h : SentTrue M s) : SentTrue M (s.markSafeAll S) := by
  unfold SentTrue at h ⊢
  unfold Sentence.markSafeAll
  simp only
  have he : (s.cells \ S) ∩ M = s.cells ∩ M := by
    ext x
    simp only [Finset.mem_inter, Finset.mem_sdiff]
    constructor
    · rintro ⟨⟨hx, -⟩, hxM⟩; exact ⟨hx, hxM⟩
    · rintro ⟨hx, hxM⟩; exact ⟨⟨hx, fun hxS => hS x hxS hxM⟩, hxM⟩
  rw [he]; exact h

theorem SentTrue.markMineAll {M S : Finset Cell} (hS : S ⊆ M) {s : Sentence}
    (h : SentTrue M s) : SentTrue M (s.markMineAll S) := by
  unfold SentTrue at h ⊢
  unfold Sentence.markMineAll
  simp only
  have he : (s.cells \ S) ∩ M = (s.cells ∩ M) \ (s.cells ∩ S) := by
    ext x
    simp only [Finset.mem_inter, Finset.mem_sdiff]
    constructor
    · rintro ⟨⟨hx, hxS⟩, hxM⟩; exact ⟨⟨hx, hxM⟩, fun hc => hxS hc.2⟩
    · rintro ⟨⟨hx, hxM⟩, hns⟩; exact ⟨⟨hx, fun hxS => hns ⟨hx, hxS⟩⟩, hxM⟩
  have hsub : s.cells ∩ S ⊆ s.cells ∩ M := Finset.inter_subset_inter (Finset.Subset.refl _) hS
  rw [he, Finset.card_sdiff hsub, Nat.cast_sub (Finset.card_le_card hsub)]
  omega

theorem EngineInv.preserved_mark_safe {M : Finset Cell} {ai : AI} {c : Cell} (hc : c ∉ M)
    (h : EngineInv M ai) : EngineInv M (ai.mark_safe c) := by
  obtain ⟨h1, h2, h3⟩ := h
  refine ⟨?_, h2, ?_⟩
  · intro x hx
    rcases Finset.mem_insert.mp hx with rfl | hx2
    · exact hc
    · exact h1 x hx2
  · intro s hs
    obtain ⟨orig, horig, rfl⟩ := List.mem_map.mp hs
    exact SentTrue.mark_safe hc (h3 orig horig)

theorem EngineInv.preserved_markMineAll {M S : Finset Cell} {ai : AI} (hS : S ⊆ M)
    (h : EngineInv M ai) : EngineInv M (ai.markMineAll S) := by
  obtain ⟨h1, h2, h3⟩ := h
  refine ⟨h1, Finset.union_subset h2 hS, ?_⟩
  intro s hs
  obtain ⟨orig, horig, rfl⟩ := List.mem_map.mp hs
  exact SentTrue.markMineAll hS (h3 orig horig)

theorem EngineInv.preserved_markSafeAll {M S : Finset Cell} {ai : AI} (hS : ∀ x ∈ S, x ∉ M)
    (h : EngineInv M ai) : EngineInv M (ai.markSafeAll S) := by
  obtain ⟨h1, h2, h3⟩ := h
  refine ⟨?_, h2, ?_⟩
  · intro x hx
    rcases Finset.mem_union.mp hx with hx2 | hx2
    · exact h1 x hx2
    · exact hS x hx2
  · intro s hs
    obtain ⟨orig, horig, rfl⟩ := List.mem_map.mp hs
    exact SentTrue.markSafeAll hS (h3 orig horig)

/-- A true sentence whose `known_mines` is informative has all its cells in
`M`. -/
theorem SentTrue.mines_sub {M : Finset Cell} {s : Sentence} {S : Finset Cell}
    (ht : SentTrue M s) (hm : s.known_mines = some S) : S ⊆ M := by
  obtain ⟨rfl, hcard, hcount⟩ := Sentence.known_mines_eq_some.mp hm
  unfold SentTrue at ht
  have hcards : s.cells.card = (s.cells ∩ M).card := by
    have := hcount.trans ht
    exact_mod_cast this
  have heq : s.cells ∩ M = s.cells :=
    Finset.eq_of_subset_of_card_le Finset.inter_subset_left (le_of_eq hcards)
  intro x hx
  have : x ∈ s.cells ∩ M := heq.symm ▸ hx
  exact (Finset.mem_inter.mp this).2

/-- A true sentence whose `known_safes` is informative has none of its cells
in `M`. -/
theorem SentTrue.safes_disjoint {M : Finset Cell} {s : Sentence} {S : Finset Cell}
    (ht : SentTrue M s) (hs : s.known_safes = some S) : ∀ x ∈ S, x ∉ M := by
  obtain ⟨rfl, hcard, hle⟩ := Sentence.known_safes_eq_some.mp hs
  unfold SentTrue at ht
  have hz : (s.cells ∩ M).card = 0 := by omega
  have he : s.cells ∩ M = ∅ := Finset.card_eq_zero.mp hz
  intro x hx hxM
  have : x ∈ s.cells ∩ M := Finset.mem_inter.mpr ⟨hx, hxM⟩
  rw [he] at this
  exact absurd this (Finset.not_mem_empty x)

theorem EngineInv.stepSentence {M : Finset Cell} {ai : AI} (i : Nat)
    (h : EngineInv M ai) : EngineInv M (ai.stepSentence i).1 := by
  cases hg : ai.knowledge[i]? with
  | none =>
    simp only [AI.stepSentence, List.get?_eq_getElem?, hg]
    exact h
  | some sent =>
    have hmem : sent ∈ ai.knowledge := by
      rw [← List.get?_eq_getElem?] at hg
      exact List.get?_mem hg
    have htrue : SentTrue M sent := h.2.2 sent hmem
    cases hm : sent.known_mines with
    | some S =>
      have hs := Sentence.known_mines_some_safes_none hm
      simp only [AI.stepSentence, List.get?_eq_getElem?, hg, hm, hs]
      exact EngineInv.preserved_markMineAll (SentTrue.mines_sub htrue hm) h
    | none =>
      cases hsafe : sent.known_safes with
      | some T =>
        simp only [AI.stepSentence, List.get?_eq_getElem?, hg, hm, hsafe]
        exact EngineInv.preserved_markSafeAll (SentTrue.safes_disjoint htrue hsafe) h
      | none =>
        simp only [AI.stepSentence, List.get?_eq_getElem?, hg, hm, hsafe]
        exact h

theorem EngineInv.passFold {M : Finset Cell} (l : List Nat) (p : AI × Nat)
    (h : EngineInv M p.1) :
    EngineInv M (l.foldl (fun p i => ((p.1.stepSentence i).1, p.2 + (p.1.stepSentence i).2)) p).1 := by
  induction l generalizing p with
  | nil => exact h
  | cons i t ih =>
    simp only [List.foldl_cons]
    exact ih ((p.1.stepSentence i).1, p.2 + (p.1.stepSentence i).2) (EngineInv.stepSentence i h)

theorem EngineInv.updatePass {M : Finset Cell} {ai : AI} (h : EngineInv M ai) :
    EngineInv M ai.updatePass.1 := by
  unfold AI.updatePass
  exact EngineInv.passFold (List.range ai.knowledge.length) (ai, 0) h

theorem EngineInv.updateAux {M : Finset Cell} (fuel : Nat) :
    ∀ ai : AI, EngineInv M ai → EngineInv M (AI.updateAux fuel ai) := by
  induction fuel with
  | zero => intro ai h; exact h
  | succ f ih =>
    intro ai h
    rw [AI.updateAux_succ]
    split_ifs with hpos
    · exact ih ai.updatePass.1 (EngineInv.updatePass h)
    · exact EngineInv.updatePass h

theorem EngineInv.update {M : Finset Cell} {ai : AI} (h : EngineInv M ai) :
    EngineInv M ai.update_with_new_sentence :=
  EngineInv.updateAux (ai.totalMem + 1) ai h

theorem EngineInv.get_subset_knowledge {M : Finset Cell} {ai : AI} (h : EngineInv M ai) :
    EngineInv M ai.get_subset_knowledge := by
  rcases AI.get_subset_knowledge_spec ai with ⟨heq, -⟩ | ⟨-, s1, s2, hfir, heq⟩
  · rw [heq]; exact h
  · rw [heq]
    refine ⟨h.1, h.2.1, ?_⟩
    intro s hsm
    unfold replaceKB at hsm
    obtain ⟨orig, horig, rfl⟩ := List.mem_map.mp hsm
    split_ifs with hcells
    · obtain ⟨hm1, hm2, hne, hc1, hc2, hsub⟩ := hfir
      have ht1 : SentTrue M s1 := h.2.2 s1 hm1
      have ht2 : SentTrue M s2 := h.2.2 s2 hm2
      unfold SentTrue at ht1 ht2 ⊢
      simp only
      have hinter : (s2.cells \ s1.cells) ∩ M = (s2.cells ∩ M) \ (s1.cells ∩ M) := by
        ext x
        simp only [Finset.mem_inter, Finset.mem_sdiff]
        constructor
        · rintro ⟨⟨hx2, hx1⟩, hxM⟩; exact ⟨⟨hx2, hxM⟩, fun hc => hx1 hc.1⟩
        · rintro ⟨⟨hx2, hxM⟩, hns⟩; exact ⟨⟨hx2, fun hx1 => hns ⟨hx1, hxM⟩⟩, hxM⟩
      have hsub2 : s1.cells ∩ M ⊆ s2.cells ∩ M :=
        Finset.inter_subset_inter hsub (Finset.Subset.refl _)
      rw [hinter, Finset.card_sdiff hsub2, Nat.cast_sub (Finset.card_le_card hsub2)]
      omega
    · exact h.2.2 orig horig

/-- The nearby-mines count names exactly this filtered block. -/
def nearbySet (height width : Nat) (mines : Finset Cell) (cell : Cell) : Finset Cell :=
  ((Finset.Icc (cell.1 - 1) (cell.1 + 1)) ×ˢ (Finset.Icc (cell.2 - 1) (cell.2 + 1))).filter
    (fun p => p ≠ cell ∧ p.1 < height ∧ p.2 < width ∧ p ∈ mines)

theorem nearby_mines_eq_card (height width : Nat) (mines : Finset Cell) (cell : Cell) :
    Minesweeper.nearby_mines height width mines cell = (nearbySet height width mines cell).card :=
  rfl

/-- Core geometric fact: a clamped row/column rectangle whose bounds agree
with the Chebyshev ball on in-grid indices, filtered of known-safe cells and
intersected with the mine set, is exactly the set counted by `nearby_mines` —
provided the mines are in-grid, no known-safe cell (nor the centre) is a
mine. -/
theorem block_inter_eq (height width : Nat) (M safes : Finset Cell) (cell : Cell)
    (up down left right : Nat)
    (hu : ∀ a : Nat, a < height → (up ≤ a ∧ a ≤ down ↔ cell.1 - 1 ≤ a ∧ a ≤ cell.1 + 1))
    (hl : ∀ b : Nat, b < width → (left ≤ b ∧ b ≤ right ↔ cell.2 - 1 ≤ b ∧ b ≤ cell.2 + 1))
    (hM : ∀ x ∈ M, x.1 < height ∧ x.2 < width) (hcM : cell ∉ M)
    (hsafes : ∀ x ∈ safes, x ∉ M) :
    ((Finset.Icc up down ×ˢ Finset.Icc left right).filter (fun p => p ∉ safes)) ∩ M =
      nearbySet height width M cell := by
  ext x
  unfold nearbySet
  simp only [Finset.mem_inter, Finset.mem_filter, Finset.mem_product, Finset.mem_Icc]
  constructor
  · rintro ⟨⟨⟨⟨a1, a2⟩, a3, a4⟩, hns⟩, hxM⟩
    obtain ⟨hxh, hxw⟩ := hM x hxM
    refine ⟨⟨?_, ?_⟩, fun he => hcM (he ▸ hxM), hxh, hxw, hxM⟩
    · exact (hu x.1 hxh).mp ⟨a1, a2⟩
    · exact (hl x.2 hxw).mp ⟨a3, a4⟩
  · rintro ⟨⟨hrow, hcol⟩, hne, hxh, hxw, hxM⟩
    refine ⟨⟨⟨?_, ?_⟩, fun hcon => hsafes x hcon hxM⟩, hxM⟩
    · exact (hu x.1 hxh).mpr hrow
    · exact (hl x.2 hxw).mpr hcol

/-- The sentence `observe` builds is true of the ground truth: intersected
with the mines, its cell set is exactly the set `nearby_mines` counts. -/
theorem get_neighbours_inter (ai : AI) (M : Finset Cell) (cell : Cell)
    (hM : M ⊆ gridCells ai.height ai.width) (hcM : cell ∉ M)
    (hsafes : ∀ x ∈ ai.safes, x ∉ M) :
    ai.get_neighbours cell ∩ M = nearbySet ai.height ai.width M cell := by
  have hbound : ∀ x ∈ M, x.1 < ai.height ∧ x.2 < ai.width := by
    intro x hx
    have hxg := hM hx
    simp only [gridCells, Finset.mem_product, Finset.mem_range] at hxg
    exact hxg
  unfold AI.get_neighbours
  refine block_inter_eq ai.height ai.width M ai.safes cell _ _ _ _ ?_ ?_ hbound hcM hsafes
  · intro a ha
    split_ifs with h1 h2 <;> omega
  · intro b hb
    split_ifs with h1 h2 <;> omega

/-- The sentence built by `observe` from a true count is true. -/
theorem SentTrue_new_sentence {M : Finset Cell} (a2 : AI) (cell : Cell) (count : Int)
    (hM : M ⊆ gridCells a2.height a2.width) (hcM : cell ∉ M)
    (hcount : count = (Minesweeper.nearby_mines a2.height a2.width M cell : Int))
    (hsafes : ∀ x ∈ a2.safes, x ∉ M) :
    SentTrue M (Sentence.mk (a2.get_neighbours cell) count) := by
  unfold SentTrue
  simp only
  rw [get_neighbours_inter a2 M cell hM hcM hsafes, ← nearby_mines_eq_card]
  exact hcount

/-- One `observe` call preserves the soundness invariant, provided the
observed cell is not itself a mine of the ground truth and the reported count
is the true nearby-mine count. -/
theorem EngineInv.add_knowledge {M : Finset Cell} {ai : AI} {cell : Cell} {count : Int}
    (hM : M ⊆ gridCells ai.height ai.width) (hcM : cell ∉ M)
    (hcount : count = (Minesweeper.nearby_mines ai.height ai.width M cell : Int))
    (h : EngineInv M ai) : EngineInv M (ai.add_knowledge cell count) := by
  unfold AI.add_knowledge
  have h1 : EngineInv M { ai with moves_made := insert cell ai.moves_made } := h
  have h2 := EngineInv.preserved_mark_safe hcM h1
  refine EngineInv.get_subset_knowledge (EngineInv.update ?_)
  obtain ⟨h2a, h2b, h2c⟩ := h2
  refine ⟨h2a, h2b, ?_⟩
  intro s hs
  rcases List.mem_append.mp hs with hs1 | hs2
  · exact h2c s hs1
  · have hseq : s = Sentence.mk
        (({ ai with moves_made := insert cell ai.moves_made }.mark_safe cell).get_neighbours cell)
        count := List.mem_singleton.mp hs2
    subst hseq
    exact SentTrue_new_sentence _ cell count hM hcM hcount h2a

/-- The grid dimensions are never written after construction: one loop-body
iteration keeps them. -/
theorem AI.stepSentence_dims (ai : AI) (i : Nat) :
    (ai.stepSentence i).1.height = ai.height ∧ (ai.stepSentence i).1.width = ai.width := by
  cases hg : ai.knowledge[i]? with
  | none =>
    simp only [AI.stepSentence, List.get?_eq_getElem?, hg]
    trivial
  | some sent =>
    cases hm : sent.known_mines with
    | some S =>
      have hs := Sentence.known_mines_some_safes_none hm
      simp only [AI.stepSentence, List.get?_eq_getElem?, hg, hm, hs]
      trivial
    | none =>
      cases hs : sent.known_safes with
      | some T =>
        simp only [AI.stepSentence, List.get?_eq_getElem?, hg, hm, hs]
        trivial
      | none =>
        simp only [AI.stepSentence, List.get?_eq_getElem?, hg, hm, hs]
        trivial

theorem AI.passFold_dims (l : List Nat) (p : AI × Nat) :
    (l.foldl (fun p i => ((p.1.stepSentence i).1, p.2 + (p.1.stepSentence i).2)) p).1.height =
        p.1.height ∧
      (l.foldl (fun p i => ((p.1.stepSentence i).1, p.2 + (p.1.stepSentence i).2)) p).1.width =
        p.1.width := by
  induction l generalizing p with
  | nil => exact ⟨rfl, rfl⟩
  | cons i t ih =>
    simp only [List.foldl_cons]
    have h1 := ih ((p.1.stepSentence i).1, p.2 + (p.1.stepSentence i).2)
    have h2 := AI.stepSentence_dims p.1 i
    simp only at h1
    exact ⟨h1.1.trans h2.1, h1.2.trans h2.2⟩

theorem AI.updateAux_dims (fuel : Nat) :
    ∀ ai : AI, (AI.updateAux fuel ai).height = ai.height ∧
      (AI.updateAux fuel ai).width = ai.width := by
  induction fuel with
  | zero => intro ai; exact ⟨rfl, rfl⟩
  | succ f ih =>
    intro ai
    rw [AI.updateAux_succ]
    have hp : ai.updatePass.1.height = ai.height ∧ ai.updatePass.1.width = ai.width :=
      AI.passFold_dims (List.range ai.knowledge.length) (ai, 0)
    split_ifs with hpos
    · have h1 := ih ai.updatePass.1
      exact ⟨h1.1.trans hp.1, h1.2.trans hp.2⟩
    · exact hp

theorem AI.add_knowledge_dims (ai : AI) (cell : Cell) (count : Int) :
    (ai.add_knowledge cell count).height = ai.height ∧
      (ai.add_knowledge cell count).width = ai.width := by
  unfold AI.add_knowledge
  have hup := AI.updateAux_dims
    (({ ({ ai with moves_made := insert cell ai.moves_made }.mark_safe cell) with knowledge :=
      ({ ai with moves_made := insert cell ai.moves_made }.mark_safe cell).knowledge ++
        [Sentence.mk
          (({ ai with moves_made := insert cell ai.moves_made }.mark_safe cell).get_neighbours
            cell) count] }).totalMem + 1)
    ({ ({ ai with moves_made := insert cell ai.moves_made }.mark_safe cell) with knowledge :=
      ({ ai with moves_made := insert cell ai.moves_made }.mark_safe cell).knowledge ++
        [Sentence.mk
          (({ ai with moves_made := insert cell ai.moves_made }.mark_safe cell).get_neighbours
            cell) count] })
  rcases AI.get_subset_knowledge_spec (AI.update_with_new_sentence
    ({ ({ ai with moves_made := insert cell ai.moves_made }.mark_safe cell) with knowledge :=
      ({ ai with moves_made := insert cell ai.moves_made }.mark_safe cell).knowledge ++
        [Sentence.mk
          (({ ai with moves_made := insert cell ai.moves_made }.mark_safe cell).get_neighbours
            cell) count] })) with ⟨he, -⟩ | ⟨-, s1, s2, -, he⟩ <;>
    · rw [he]
      exact hup

/-- The soundness invariant holds along any run whose observations all report
true counts of non-mine cells. -/
theorem engineInv_runGame (height width : Nat) (M : Finset Cell)
    (hM : M ⊆ gridCells height width) (obs : List (Cell × Int))
    (hobs : ∀ p ∈ obs, p.1 ∉ M ∧
      p.2 = (Minesweeper.nearby_mines height width M p.1 : Int)) :
    EngineInv M (runGame height width obs) := by
  unfold runGame
  have hgen : ∀ (l : List (Cell × Int)) (start : AI), start.height = height →
      start.width = width → EngineInv M start →
      (∀ p ∈ l, p.1 ∉ M ∧ p.2 = (Minesweeper.nearby_mines height width M p.1 : Int)) →
      EngineInv M (l.foldl (fun ai p => ai.add_knowledge p.1 p.2) start) := by
    intro l
    induction l with
    | nil => intro start _ _ hstart _; exact hstart
    | cons q t ih =>
      intro start hh hw hstart hl
      simp only [List.foldl_cons]
      have hq := hl q (List.mem_cons_self q t)
      have hdims := AI.add_knowledge_dims start q.1 q.2
      refine ih (start.add_knowledge q.1 q.2) (hdims.1.trans hh) (hdims.2.trans hw) ?_
        (fun p hp => hl p (List.mem_cons_of_mem q hp))
      refine EngineInv.add_knowledge ?_ hq.1 ?_ hstart
      · rw [hh, hw]; exact hM
      · rw [hh, hw]; exact hq.2
  exact hgen obs (AI.init height width) rfl rfl
    ⟨fun x hx => absurd hx (Finset.not_mem_empty x), Finset.empty_subset M,
      fun s hs => absurd hs (List.not_mem_nil s)⟩ hobs

/-!
Claim theorems.
-/

/-- Claim C8: `known_safes()` returns the full cell set iff the cell set is
non-empty and the count is `≤ 0` (the comparison is `<= 0`, not `== 0`);
otherwise — in particular on an empty cell set, whatever the count — it
returns no information, and `known_mines()` likewise returns no information
on an empty cell set. -/
theorem C8_known_safes_empty (s : Sentence) :
    (s.known_safes = some s.cells ↔ s.cells.Nonempty ∧ s.count ≤ 0) ∧
    (¬(s.cells.Nonempty ∧ s.count ≤ 0) → s.known_safes = none) ∧
    (s.cells = ∅ → s.known_safes = none ∧ s.known_mines = none) := by
  refine ⟨?_, ?_, ?_⟩
  · unfold Sentence.known_safes
    split_ifs with h
    · constructor
      · intro _
        exact ⟨Finset.card_pos.mp (Nat.pos_of_ne_zero h.1), h.2⟩
      · intro _
        rfl
    · constructor
      · intro hc
        simp at hc
      · intro hc
        exact absurd ⟨(Finset.card_pos.mpr hc.1).ne', hc.2⟩ h
  · unfold Sentence.known_safes
    split_ifs with h
    · intro hn
      exact absurd ⟨Finset.card_pos.mp (Nat.pos_of_ne_zero h.1), h.2⟩ hn
    · intro _
      rfl
  · intro he
    unfold Sentence.known_safes Sentence.known_mines
    rw [he]
    simp

/-- Witness for C8 at concrete sentences: a non-empty zero-count sentence
reports all cells safe; an empty sentence with positive count reports
nothing. -/
theorem C8_witness :
    (Sentence.mk {(0, 0)} 0).known_safes = some {(0, 0)} ∧
    (Sentence.mk ∅ 3).known_safes = none ∧ (Sentence.mk ∅ 3).known_mines = none := by
  refine ⟨?_, (C8_known_safes_empty (Sentence.mk ∅ 3)).2.2 rfl⟩
  exact (C8_known_safes_empty (Sentence.mk {(0, 0)} 0)).1.mpr ⟨by decide, by decide⟩

/-- Removing a cell twice is the same as removing it once. -/
theorem Sentence.mark_mine_idem (s : Sentence) (c : Cell) :
    (s.mark_mine c).mark_mine c = s.mark_mine c := by
  unfold Sentence.mark_mine
  by_cases h : c ∈ s.cells
  · simp [h]
  · simp [h]

/-- Claim C10: the engine-level `mark_mine` is idempotent — the second call
finds the cell gone from every sentence (and already in the mine set), so it
cannot decrement any count again. -/
theorem C10_mark_mine_idempotent (ai : AI) (c : Cell) :
    (ai.mark_mine c).mark_mine c = ai.mark_mine c := by
  cases ai with
  | mk height width moves_made mines safes knowledge =>
    unfold AI.mark_mine
    simp only [List.map_map]
    refine AI.mk.injEq _ _ _ _ _ _ _ _ _ _ _ _ ▸ ⟨rfl, rfl, rfl, ?_, rfl, ?_⟩
    · exact Finset.insert_idem c mines
    · refine List.map_congr_left ?_
      intro s _
      exact Sentence.mark_mine_idem s c

/-- Claim C3: the direct-resolution fixed point terminates.  A pass that
classified anything strictly shrinks the total (sentence, cell) membership
count, no pass ever grows it, any fuel of at least `totalMem` re-passes
computes the fixed point, and the state it returns is a genuine fixed point
(a further pass classifies nothing). -/
theorem C3_update_terminates (ai : AI) :
    (0 < ai.updatePass.2 → ai.updatePass.1.totalMem < ai.totalMem) ∧
    ai.updatePass.1.totalMem ≤ ai.totalMem ∧
    (∀ n, ai.totalMem ≤ n → AI.updateAux (n + 1) ai = ai.update_with_new_sentence) ∧
    ai.update_with_new_sentence.updatePass.2 = 0 :=
  ⟨AI.updatePass_totalMem_lt ai, AI.updatePass_totalMem_le ai,
    fun n hn => AI.updateAux_sufficient n ai hn, AI.update_fixpoint ai⟩

/-- Witness for C3 on a one-sentence state that classifies a mine: the pass
strictly shrinks the measure and three units of fuel already reach the fixed
point. -/
theorem C3_witness :
    (AI.mk 1 1 ∅ ∅ ∅ [Sentence.mk {(0, 0)} 1]).updatePass.1.totalMem <
      (AI.mk 1 1 ∅ ∅ ∅ [Sentence.mk {(0, 0)} 1]).totalMem ∧
    AI.updateAux 3 (AI.mk 1 1 ∅ ∅ ∅ [Sentence.mk {(0, 0)} 1]) =
      (AI.mk 1 1 ∅ ∅ ∅ [Sentence.mk {(0, 0)} 1]).update_with_new_sentence :=
  ⟨(C3_update_terminates _).1 (by decide),
    (C3_update_terminates (AI.mk 1 1 ∅ ∅ ∅ [Sentence.mk {(0, 0)} 1])).2.2.1 2 (by decide)⟩

/-- Claim C7 (code bug): `make_random_move` draws from the literal 8×8 grid,
not the configured one.  On a 1×3 engine its candidate list contains `(7, 7)`
and an unlucky pick returns it, although `(7, 7)` is far outside the grid. -/
theorem C7_random_move_fixed_grid :
    (7, 7) ∈ (AI.init 1 3).random_move_candidates ∧
    (AI.init 1 3).make_random_move 63 = some (7, 7) ∧
    (7, 7) ∉ gridCells 1 3 := by decide

/-- Claim C9 (code bug): asking a 1×1 board for 2 mines never finishes.
Whatever finite stream of random draws the placement loop consumes (every
draw being in-grid, as `random.randrange` guarantees), the mine set stays
inside the single grid cell, its size never reaches 2, and the loop guard
never becomes false — the constructor neither raises nor clamps. -/
theorem C9_placement_never_reaches_target (picks : List Cell)
    (hb : ∀ p ∈ picks, p.1 < 1 ∧ p.2 < 1) :
    Minesweeper.placeMines 2 picks ∅ = none := by
  have key : ∀ (l : List Cell) (mines : Finset Cell), mines ⊆ {(0, 0)} →
      (∀ p ∈ l, p.1 < 1 ∧ p.2 < 1) → Minesweeper.placeMines 2 l mines = none := by
    intro l
    induction l with
    | nil =>
      intro mines hsub _
      unfold Minesweeper.placeMines
      rw [if_neg]
      have h1 := Finset.card_le_card hsub
      rw [Finset.card_singleton] at h1
      omega
    | cons p t ih =>
      intro mines hsub hbl
      unfold Minesweeper.placeMines
      have h1 := Finset.card_le_card hsub
      rw [Finset.card_singleton] at h1
      rw [if_neg (by omega)]
      have hp : p = (0, 0) := by
        obtain ⟨hp1, hp2⟩ := hbl p (List.mem_cons_self p t)
        have e1 : p.1 = 0 := by omega
        have e2 : p.2 = 0 := by omega
        exact Prod.ext e1 e2
      refine ih _ ?_ (fun q hq => hbl q (List.mem_cons_of_mem p hq))
      split_ifs with hmem
      · exact hsub
      · subst hp
        intro x hx
        rcases Finset.mem_insert.mp hx with rfl | hx2
        · exact Finset.mem_singleton_self _
        · exact hsub hx2
  exact key picks ∅ (Finset.empty_subset _) hb

/-- Witness for C9: a concrete stream of three draws, all in the 1×1 grid,
leaves the construction unfinished. -/
theorem C9_witness :
    Minesweeper.placeMines 2 [(0, 0), (0, 0), (0, 0)] ∅ = none :=
  C9_placement_never_reaches_target [(0, 0), (0, 0), (0, 0)] (by decide)

/-- Claim C4 (code bug): on a 1×3 board, observing `(0, 0)` with count 0
builds the zero-count sentence over `{(0, 1), (1, 0), (1, 1)}` — not over
`{(0, 1)}` — because the one-row clamp never fires (`elif` after the
`row == 0` branch), so the whole second, out-of-bounds row survives; all
three cells are then marked safe, and the safe-move candidate set contains
the out-of-bounds `(1, 0)` and `(1, 1)` next to `(0, 1)`. -/
theorem C4_one_row_board_out_of_bounds :
    ((AI.init 1 3).mark_safe (0, 0)).get_neighbours (0, 0) = {(0, 1), (1, 0), (1, 1)} ∧
    ((AI.init 1 3).add_knowledge (0, 0) 0).safes = {(0, 0), (0, 1), (1, 0), (1, 1)} ∧
    ((AI.init 1 3).add_knowledge (0, 0) 0).safe_move_candidates = {(0, 1), (1, 0), (1, 1)} ∧
    ¬ ((AI.init 1 3).add_knowledge (0, 0) 0).safe_move_candidates ⊆ gridCells 1 3 := by
  decide

/-- Counterexample to claim C6 as stated: on a fresh 3×3 engine the centre
cell `(1, 1)` appears in its own neighbour set — `get_neighbours` never
excludes the centre, it only excludes cells already in `safes`. -/
theorem C6_counterexample :
    (1, 1) ∈ (AI.init 3 3).get_neighbours (1, 1) := by decide

/-- Claim C6 (amended): on an engine with height ≥ 2 and width ≥ 2, for any
in-bounds cell, `get_neighbours` returns exactly the in-bounds cells at
Chebyshev distance at most 1 — centre included — minus `known_safe`; the
centre is excluded only when it is itself in `known_safe` (as in
`add_knowledge`, which marks the observed cell safe first).  On height-1 or
width-1 boards the clamp misfires and out-of-bounds cells can appear. -/
theorem C6_neighbours_characterisation (ai : AI) (r c : Nat)
    (hH : 2 ≤ ai.height) (hW : 2 ≤ ai.width) (hr : r < ai.height) (hc : c < ai.width) :
    ai.get_neighbours (r, c) =
      (gridCells ai.height ai.width).filter
        (fun p => (p.1 ≤ r + 1 ∧ r ≤ p.1 + 1 ∧ p.2 ≤ c + 1 ∧ c ≤ p.2 + 1) ∧ p ∉ ai.safes) := by
  ext x
  simp only [AI.get_neighbours, gridCells, Finset.mem_filter, Finset.mem_product,
    Finset.mem_Icc, Finset.mem_range]
  split_ifs with h1 h2 h3 h4 <;>
    (constructor
     · rintro ⟨⟨⟨a1, a2⟩, a3, a4⟩, hns⟩
       exact ⟨⟨by omega, by omega⟩, ⟨by omega, by omega, by omega, by omega⟩, hns⟩
     · rintro ⟨⟨b1, b2⟩, ⟨b3, b4, b5, b6⟩, hns⟩
       exact ⟨⟨⟨by omega, by omega⟩, by omega, by omega⟩, hns⟩)

/-- Witness for C6 (amended) on a 2×2 engine at the corner cell. -/
theorem C6_witness :
    (AI.init 2 2).get_neighbours (0, 0) =
      (gridCells 2 2).filter
        (fun p => (p.1 ≤ 0 + 1 ∧ 0 ≤ p.1 + 1 ∧ p.2 ≤ 0 + 1 ∧ 0 ≤ p.2 + 1) ∧
          p ∉ (AI.init 2 2).safes) :=
  C6_neighbours_characterisation (AI.init 2 2) 0 0 (by decide) (by decide) (by decide) (by decide)

/-- Counterexample to claim C2 as stated: with the four sentences
`{a}=0, {a,b}=1, {c}=0, {c,d}=1` the ordered pair `({a}=0, {a,b}=1)` fires
(subset, different non-empty cell sets), yet its derived replacement `{b}=1`
is absent from the post-pass knowledge base: the later firing pair
`({c}=0, {c,d}=1)` rebuilt `new_knowledge` from the pre-pass base and
discarded the earlier replacement. -/
theorem C2_counterexample :
    (({(0, 0)} : Finset Cell) ⊆ {(0, 0), (0, 1)}) ∧
    (({(0, 0)} : Finset Cell) ≠ {(0, 0), (0, 1)}) ∧
    Sentence.mk {(0, 1)} 1 ∉
      (AI.get_subset_knowledge (AI.mk 8 8 ∅ ∅ ∅
        [Sentence.mk {(0, 0)} 0, Sentence.mk {(0, 0), (0, 1)} 1,
         Sentence.mk {(0, 2)} 0, Sentence.mk {(0, 2), (0, 3)} 1])).knowledge ∧
    (AI.get_subset_knowledge (AI.mk 8 8 ∅ ∅ ∅
        [Sentence.mk {(0, 0)} 0, Sentence.mk {(0, 0), (0, 1)} 1,
         Sentence.mk {(0, 2)} 0, Sentence.mk {(0, 2), (0, 3)} 1])).knowledge =
      [Sentence.mk {(0, 0)} 0, Sentence.mk {(0, 0), (0, 1)} 1,
       Sentence.mk {(0, 2)} 0, Sentence.mk {(0, 3)} 1] := by decide

/-- Claim C2 (amended): after one subset-reduction pass, either no ordered
pair of distinct non-empty sentences with a subset relation exists and the
engine is unchanged, or at least one exists and the swapped knowledge base is
the replacement list of exactly one firing pair — built from the pre-pass
knowledge base (pre-pass cell sets), with every other firing pair's
replacement discarded, since each firing rebuilds `new_knowledge` from
`self.knowledge`. -/
theorem C2_single_replacement_survives (ai : AI) :
    (ai.get_subset_knowledge = ai ∧ ∀ s1 s2, ¬ firing ai.knowledge s1 s2) ∨
    ((∃ s1 s2, firing ai.knowledge s1 s2) ∧ ∃ s1 s2, firing ai.knowledge s1 s2 ∧
      ai.get_subset_knowledge = { ai with knowledge := replaceKB ai.knowledge s1 s2 }) :=
  AI.get_subset_knowledge_spec ai

/-- Witness for C2 (amended): on an empty knowledge base no pair fires and
the engine is unchanged. -/
theorem C2_witness : AI.get_subset_knowledge (AI.init 8 8) = AI.init 8 8 := by
  rcases C2_single_replacement_survives (AI.init 8 8) with ⟨heq, -⟩ | ⟨⟨s1, s2, hfir⟩, -⟩
  · exact heq
  · exact absurd hfir.1 (List.not_mem_nil s1)

/-- A mine recorded by the first pass survives to the fixed point. -/
theorem AI.mines_in_update (ai : AI) (x : Cell) (hx : x ∈ ai.updatePass.1.mines) :
    x ∈ ai.update_with_new_sentence.mines := by
  rw [AI.update_eq]
  split_ifs with h
  · exact (grows_update ai.updatePass.1).2 hx
  · exact hx

/-- Claim C5: from the knowledge base `[{c1,c2,c3} = 1, {c1,c2,c3,c4} = 2]`
(distinct cells), one subset-reduction pass replaces the superset sentence
with `{c4} = 1` leaving the subset sentence in place, and the following
direct-resolution pass classifies `c4` as a mine. -/
theorem C5_subset_then_mine (ai : AI) (c1 c2 c3 c4 : Cell)
    (h12 : c1 ≠ c2) (h13 : c1 ≠ c3) (h14 : c1 ≠ c4) (h23 : c2 ≠ c3) (h24 : c2 ≠ c4)
    (h34 : c3 ≠ c4)
    (hkb : ai.knowledge = [Sentence.mk {c1, c2, c3} 1, Sentence.mk {c1, c2, c3, c4} 2]) :
    ai.get_subset_knowledge.knowledge = [Sentence.mk {c1, c2, c3} 1, Sentence.mk {c4} 1] ∧
    c4 ∈ ai.get_subset_knowledge.update_with_new_sentence.mines := by
  have hc4A : c4 ∉ ({c1, c2, c3} : Finset Cell) := by
    simp only [Finset.mem_insert, Finset.mem_singleton]
    push_neg
    exact ⟨fun h => h14 h.symm, fun h => h24 h.symm, fun h => h34 h.symm⟩
  have hsub : ({c1, c2, c3} : Finset Cell) ⊆ {c1, c2, c3, c4} := by
    intro x hx
    simp only [Finset.mem_insert, Finset.mem_singleton] at hx ⊢
    tauto
  have hne : ({c1, c2, c3} : Finset Cell) ≠ {c1, c2, c3, c4} := by
    intro he
    have hm : c4 ∈ ({c1, c2, c3, c4} : Finset Cell) := by simp
    rw [← he] at hm
    exact hc4A hm
  have hnsub : ¬ (({c1, c2, c3, c4} : Finset Cell) ⊆ {c1, c2, c3}) := by
    intro hs
    exact hc4A (hs (by simp))
  have hdiff : ({c1, c2, c3, c4} : Finset Cell) \ {c1, c2, c3} = {c4} := by
    ext x
    simp only [Finset.mem_sdiff, Finset.mem_insert, Finset.mem_singleton]
    constructor
    · rintro ⟨h1 | h1 | h1 | h1, h2⟩ <;> tauto
    · rintro rfl
      push_neg
      exact ⟨by tauto, fun h => h14 h.symm, fun h => h24 h.symm, fun h => h34 h.symm⟩
  have hcardA3 : ({c1, c2, c3} : Finset Cell).card = 3 := by
    rw [Finset.card_insert_of_not_mem (by
        simp only [Finset.mem_insert, Finset.mem_singleton]
        push_neg
        exact ⟨h12, h13⟩),
      Finset.card_insert_of_not_mem (by
        simp only [Finset.mem_singleton]
        exact h23),
      Finset.card_singleton]
  have hA0 : ({c1, c2, c3} : Finset Cell).card ≠ 0 := by omega
  have hB0 : ({c1, c2, c3, c4} : Finset Cell).card ≠ 0 :=
    Finset.card_ne_zero_of_mem (by simp : c1 ∈ ({c1, c2, c3, c4} : Finset Cell))
  have hmapAB :
      [Sentence.mk {c1, c2, c3} 1, Sentence.mk {c1, c2, c3, c4} 2].map
        (fun s => if s.cells = (Sentence.mk {c1, c2, c3, c4} (2 : Int)).cells then
          Sentence.mk ((Sentence.mk {c1, c2, c3, c4} (2 : Int)).cells \
              (Sentence.mk {c1, c2, c3} (1 : Int)).cells)
            ((Sentence.mk {c1, c2, c3, c4} (2 : Int)).count -
              (Sentence.mk {c1, c2, c3} (1 : Int)).count)
          else s) =
      [Sentence.mk {c1, c2, c3} 1, Sentence.mk {c4} 1] := by
    simp only [List.map_cons, List.map_nil, if_true]
    rw [hdiff]
    norm_num
    exact fun h => absurd h hne
  have hne2 : ({c1, c2, c3, c4} : Finset Cell) ≠ {c1, c2, c3} := fun h => hne h.symm
  have hscan : ai.get_subset_knowledge =
      { ai with knowledge := [Sentence.mk {c1, c2, c3} 1, Sentence.mk {c4} 1] } := by
    unfold AI.get_subset_knowledge subsetScan
    rw [hkb]
    simp only [List.foldl_cons, List.foldl_nil, subsetStep]
    rw [hmapAB]
    simp [hne, hne2, hsub, hnsub, hA0, hB0]
  have hkmA : (Sentence.mk {c1, c2, c3} (1 : Int)).known_mines = none := by
    unfold Sentence.known_mines
    rw [if_neg]
    rintro ⟨-, hcount⟩
    simp only at hcount
    rw [hcardA3] at hcount
    norm_num at hcount
  have hksA : (Sentence.mk {c1, c2, c3} (1 : Int)).known_safes = none := by
    unfold Sentence.known_safes
    rw [if_neg]
    rintro ⟨-, hcount⟩
    norm_num at hcount
  have hkmN : (Sentence.mk {c4} (1 : Int)).known_mines = some {c4} := by
    unfold Sentence.known_mines
    rw [if_pos]
    simp
  have hksN : (Sentence.mk {c4} (1 : Int)).known_safes = none := by
    unfold Sentence.known_safes
    rw [if_neg]
    rintro ⟨-, hcount⟩
    norm_num at hcount
  have hstep0 : ({ ai with knowledge :=
        [Sentence.mk {c1, c2, c3} 1, Sentence.mk {c4} 1] } : AI).stepSentence 0 =
      ({ ai with knowledge := [Sentence.mk {c1, c2, c3} 1, Sentence.mk {c4} 1] }, 0) := by
    have hget : ({ ai with knowledge :=
        [Sentence.mk {c1, c2, c3} 1, Sentence.mk {c4} 1] } : AI).knowledge[0]? =
        some (Sentence.mk {c1, c2, c3} 1) := rfl
    simp only [AI.stepSentence, List.get?_eq_getElem?, hget, hkmA, hksA]
  have hstep1 : ({ ai with knowledge :=
        [Sentence.mk {c1, c2, c3} 1, Sentence.mk {c4} 1] } : AI).stepSentence 1 =
      ({ ai with knowledge :=
        [Sentence.mk {c1, c2, c3} 1, Sentence.mk {c4} 1] }.markMineAll {c4}, 1) := by
    have hget : ({ ai with knowledge :=
        [Sentence.mk {c1, c2, c3} 1, Sentence.mk {c4} 1] } : AI).knowledge[1]? =
        some (Sentence.mk {c4} 1) := rfl
    simp only [AI.stepSentence, List.get?_eq_getElem?, hget, hkmN, hksN,
      Finset.card_singleton]
  have hpass : ({ ai with knowledge :=
        [Sentence.mk {c1, c2, c3} 1, Sentence.mk {c4} 1] } : AI).updatePass =
      ({ ai with knowledge :=
        [Sentence.mk {c1, c2, c3} 1, Sentence.mk {c4} 1] }.markMineAll {c4}, 1) := by
    unfold AI.updatePass
    have hrange : List.range ({ ai with knowledge :=
        [Sentence.mk {c1, c2, c3} 1, Sentence.mk {c4} 1] } : AI).knowledge.length = [0, 1] := rfl
    rw [hrange]
    simp only [List.foldl_cons, List.foldl_nil, hstep0, hstep1]
  refine ⟨?_, ?_⟩
  · rw [hscan]
  · rw [hscan]
    apply AI.mines_in_update
    rw [hpass]
    unfold AI.markMineAll
    simp only
    exact Finset.mem_union_right _ (Finset.mem_singleton_self c4)

/-- Witness for C5 at four concrete distinct cells. -/
theorem C5_witness :
    (AI.mk 8 8 ∅ ∅ ∅ [Sentence.mk {(0, 0), (0, 1), (0, 2)} 1,
        Sentence.mk {(0, 0), (0, 1), (0, 2), (0, 3)} 2]).get_subset_knowledge.knowledge =
      [Sentence.mk {(0, 0), (0, 1), (0, 2)} 1, Sentence.mk {(0, 3)} 1] ∧
    (0, 3) ∈ (AI.mk 8 8 ∅ ∅ ∅ [Sentence.mk {(0, 0), (0, 1), (0, 2)} 1,
        Sentence.mk {(0, 0), (0, 1), (0, 2), (0, 3)} 2]).get_subset_knowledge.update_with_new_sentence.mines :=
  C5_subset_then_mine _ (0, 0) (0, 1) (0, 2) (0, 3) (by decide) (by decide) (by decide)
    (by decide) (by decide) (by decide) rfl

/-- Counterexample to claim C1 as stated.  Its preconditions (observed cell
in bounds, not previously marked a mine, reported count true) do not forbid
observing a cell that is itself a mine.  On a 1×3 board with the mine at
`(0, 0)`, the four observations `(0,0)↦0, (0,1)↦1, (0,2)↦0, (0,2)↦0` all
satisfy the preconditions (each count is the board's true nearby-mine count,
and no observed cell is in the engine's mine set at call time), yet after the
fourth call the phantom cell `(1, 2)` is classified both mine and safe:
`known_safe ∩ known_mine ≠ ∅`. -/
theorem C1_counterexample :
    ((0, 0) ∈ gridCells 1 3 ∧ (0, 0) ∉ (runGame 1 3 []).mines ∧
      (0 : Int) = (Minesweeper.nearby_mines 1 3 {(0, 0)} (0, 0) : Int)) ∧
    ((0, 1) ∈ gridCells 1 3 ∧ (0, 1) ∉ (runGame 1 3 [((0, 0), 0)]).mines ∧
      (1 : Int) = (Minesweeper.nearby_mines 1 3 {(0, 0)} (0, 1) : Int)) ∧
    ((0, 2) ∈ gridCells 1 3 ∧ (0, 2) ∉ (runGame 1 3 [((0, 0), 0), ((0, 1), 1)]).mines ∧
      (0 : Int) = (Minesweeper.nearby_mines 1 3 {(0, 0)} (0, 2) : Int)) ∧
    ((0, 2) ∈ gridCells 1 3 ∧
      (0, 2) ∉ (runGame 1 3 [((0, 0), 0), ((0, 1), 1), ((0, 2), 0)]).mines ∧
      (0 : Int) = (Minesweeper.nearby_mines 1 3 {(0, 0)} (0, 2) : Int)) ∧
    (runGame 1 3 [((0, 0), 0), ((0, 1), 1), ((0, 2), 0), ((0, 2), 0)]).safes ∩
      (runGame 1 3 [((0, 0), 0), ((0, 1), 1), ((0, 2), 0), ((0, 2), 0)]).mines ≠ ∅ := by
  decide

/-- Claim C1 (amended): the known-safe and known-mine sets only grow across
`observe` calls, unconditionally; and they never overlap provided the claim's
preconditions are strengthened so that no observed cell is itself a mine of
the (in-grid) ground truth supplying the true counts.  Under the claim's
original preconditions alone disjointness fails (see the counterexample):
observing a true mine cell is permitted and can poison the knowledge base. -/
theorem C1_monotone_disjoint (height width : Nat) (M : Finset Cell)
    (obs : List (Cell × Int))
    (hM : M ⊆ gridCells height width)
    (hobs : ∀ p ∈ obs, p.1 ∈ gridCells height width ∧ p.1 ∉ M ∧
      p.2 = (Minesweeper.nearby_mines height width M p.1 : Int)) :
    (∀ (ai : AI) (c : Cell) (n : Int),
        ai.safes ⊆ (ai.add_knowledge c n).safes ∧ ai.mines ⊆ (ai.add_knowledge c n).mines) ∧
    (runGame height width obs).safes ∩ (runGame height width obs).mines = ∅ := by
  constructor
  · intro ai c n
    exact grows_add_knowledge ai c n
  · have hinv := engineInv_runGame height width M hM obs
      (fun p hp => ⟨(hobs p hp).2.1, (hobs p hp).2.2⟩)
    obtain ⟨hsafe, hmine, -⟩ := hinv
    refine Finset.eq_empty_iff_forall_not_mem.mpr ?_
    intro x hx
    obtain ⟨hxs, hxm⟩ := Finset.mem_inter.mp hx
    exact hsafe x hxs (hmine hxm)

/-- Witness for C1 (amended): a 2×2 board with no mines, one observation. -/
theorem C1_witness :
    ((AI.init 2 2).safes ⊆ ((AI.init 2 2).add_knowledge (0, 0) 0).safes ∧
      (AI.init 2 2).mines ⊆ ((AI.init 2 2).add_knowledge (0, 0) 0).mines) ∧
    (runGame 2 2 [((0, 0), 0)]).safes ∩ (runGame 2 2 [((0, 0), 0)]).mines = ∅ := by
  have h := C1_monotone_disjoint 2 2 ∅ [((0, 0), 0)] (by decide) (by decide)
  exact ⟨h.1 (AI.init 2 2) (0, 0) 0, h.2⟩
